import Mathlib

/-!
Shallow embedding of the BSON codec in src/ext/cbson/cbson.c
(mongo-ruby-driver C extension): the serializer (method_serialize,
write_doc, write_element_allow_id), the deserializer (method_deserialize,
elements_to_hash, get_value), and theorems checking the specification's
claims about them.

Byte buffers are modelled as lists of byte values; the buffer's
save_space / write_at_position back-patching of length prefixes is
modelled by computing a document body first and prepending its length.
Ruby values are modelled by the tagged sum Val covering exactly the
variants the serializer dispatches on.
-/

namespace MongoCBson

deriving instance DecidableEq for Except

/-- Wire bytes: each entry is one byte value. -/
abbrev Bytes := List Nat

/-- Little-endian bytes of a natural number, w bytes wide (the value is
taken mod 2^(8w), as a memcpy of a fixed-width field does). -/
def natLE : Nat → Nat → Bytes
  | 0, _ => []
  | w + 1, n => n % 256 :: natLE w (n / 256)

/-- Little-endian two's-complement bytes of an integer, w bytes wide. -/
def intLE (w : Nat) (v : Int) : Bytes :=
  natLE w ((v % 2 ^ (8 * w)).toNat)

/-- A Ruby hash key: a String or a Symbol, both carrying their UTF-8
byte spelling. write_element_allow_id accepts exactly these two. -/
inductive RKey : Type where
  | kstr (s : Bytes)
  | ksym (s : Bytes)
  deriving DecidableEq

/-- Key normalization in write_element_allow_id: a Symbol key is replaced
by its string spelling (rb_id2name). -/
def RKey.bytes : RKey → Bytes
  | .kstr s => s
  | .ksym s => s

mutual

/-- The Ruby values the serializer dispatches on (the TYPE/class switch of
write_element_allow_id). A Float is carried as its IEEE-754 bit pattern,
a Time as the millisecond count the serializer derives from it, a Regexp
as its pattern, its three known option bits and its extra_options_str. -/
inductive Val : Type where
  | vint (n : Int)
  | vbool (b : Bool)
  | vdouble (bits : Nat)
  | vnil
  | vdoc (d : Doc)
  | varray (a : VList)
  | vstring (s : Bytes)
  | vcode (code : Bytes) (scope : Doc)
  | vsymbol (s : Bytes)
  | vbinary (subtype : Nat) (data : Bytes)
  | objid (bytes : Bytes)
  | vdbref (ns : Val) (oid : Val)
  | vmaxkey
  | vminkey
  | vtime (ms : Int)
  | vregex (pat : Bytes) (fi fm fx : Bool) (extra : Bytes)
  deriving DecidableEq

/-- An ordered document: the ordered (key, value) pairs of a Ruby hash. -/
inductive Doc : Type where
  | dnil
  | dcons (k : RKey) (v : Val) (rest : Doc)
  deriving DecidableEq

/-- An ordered list of values (a Ruby array). -/
inductive VList : Type where
  | lnil
  | lcons (v : Val) (rest : VList)
  deriving DecidableEq

end

/-- The bytes of the key "_id". -/
def idKey : Bytes := [95, 105, 100]

/-- The bytes of the key "$ref". -/
def refKey : Bytes := [36, 114, 101, 102]

/-- strcmp("_id", key) == 0 on a Ruby string's data: the key's C-string
prefix (up to its first NUL) equals "_id". -/
def cstrIsId (s : Bytes) : Bool :=
  s.takeWhile (fun b => b != 0) == idKey

/-- has_key? on the modelled hash. -/
def Doc.hasKey : Doc → RKey → Bool
  | .dnil, _ => false
  | .dcons k2 _ rest, k => k2 == k || rest.hasKey k

/-- rb_hash_delete on the modelled hash: remove the first pair with the
given key. -/
def Doc.eraseKey : Doc → RKey → Doc
  | .dnil, _ => .dnil
  | .dcons k2 v rest, k => if k2 == k then rest else .dcons k2 v (rest.eraseKey k)

/-- Error kinds raised by the serializer (the rb_raise sites of cbson.c;
NoMemError sites are unreachable in the model, which never runs out of
buffer memory). -/
inductive SErr : Type where
  | invalidName
  | invalidDocument
  | rangeError
  | typeError
  deriving DecidableEq

/-- The check_keys validation in write_element_allow_id: a nonempty key
starting with the byte of the dollar sign, or a key containing the byte of
the dot, raises InvalidName. -/
def keyCheck (checkKeys : Bool) (key : Bytes) : Except SErr Unit :=
  if checkKeys then
    if key.head? == some 36 then .error .invalidName
    else if key.contains 46 then .error .invalidName
    else .ok ()
  else .ok ()

/-- write_name_and_type: the tag byte, then the key bytes (rejected via
check_string when they contain a NUL), then a NUL terminator. -/
def nameType (key : Bytes) (tag : Nat) : Except SErr Bytes :=
  if key.contains 0 then .error .invalidDocument
  else .ok (tag :: (key ++ [0]))

/-- Append fixed payload bytes to the result of nameType. -/
def bindBytes (e : Except SErr Bytes) (tail : Bytes) : Except SErr Bytes :=
  match e with
  | .error x => .error x
  | .ok b => .ok (b ++ tail)

/-- Decimal digits of n, least significant first (fuel-indexed helper). -/
def decDigitsAux : Nat → Nat → Bytes
  | 0, _ => []
  | fuel + 1, n => if n == 0 then [] else (48 + n % 10) :: decDigitsAux fuel (n / 10)

/-- INT2STRING: the decimal ASCII spelling of an array index. -/
def decStr (n : Nat) : Bytes :=
  if n == 0 then [48] else (decDigitsAux n n).reverse

/-- The value of a byte as a signed char (how cmp_char compares and how
get_value reads the element tag). -/
def sByte (b : Nat) : Int :=
  if b % 256 < 128 then (b % 256 : Int) else (b % 256 : Int) - 256

/-- Insert a byte into a list sorted by signed-char value. -/
def sInsert (b : Nat) : Bytes → Bytes
  | [] => [b]
  | c :: rest => if sByte b ≤ sByte c then b :: c :: rest else c :: sInsert b rest

/-- qsort with cmp_char: sort bytes by their signed-char value. -/
def sSort : Bytes → Bytes
  | [] => []
  | b :: rest => sInsert b (sSort rest)

/-- The known regex option letters written before extra_options_str. -/
def regexFlags (fi fm fx : Bool) : Bytes :=
  (if fi then [105] else []) ++ (if fm then [109] else []) ++ (if fx then [120] else [])

/-- Length-prefixed NUL-terminated framing of a document or array body
(save_space of 4 bytes, body, NUL, back-patch of the total length). -/
def subFrame (body : Bytes) : Bytes :=
  natLE 4 (4 + body.length + 1) ++ body ++ [0]

/-- write_doc framing: as subFrame, except the document raises
InvalidDocument when its total encoded length exceeds 4MiB. -/
def docFrame (body : Bytes) : Except SErr Bytes :=
  if 4 + body.length + 1 > 4194304 then .error .invalidDocument
  else .ok (subFrame body)

/-- Remove the first string "_id" entry when the flag is set (the part of a
pending rb_hash_delete not yet reached by an aborted traversal). -/
def dropD (dropStr : Bool) (d : Doc) : Doc :=
  if dropStr then d.eraseKey (.kstr idKey) else d

mutual

/-- write_element_allow_id from cbson.c: serialize one (key, value) pair.
Returns the bytes appended and the value as the call leaves it (write_doc
deletes a duplicate string "_id" entry from a traversed nested hash, so
values are threaded through). A nested hash value is serialized by the
inlined write_doc body with check_keys inherited and move_id false; a
Mongo::Code scope by the same with check_keys false; a Mongo::DBRef by the
manually framed "$ref" and "$id" elements with check_keys false. -/
def writeElement (ck : Bool) (allowId : Bool) (k : RKey) (v : Val) :
    Except SErr Bytes × Val :=
  let key := k.bytes
  if !allowId && cstrIsId key then (.ok [], v)
  else
    match keyCheck ck key with
    | .error e => (.error e, v)
    | .ok () =>
      match v with
      | .vint n =>
        if n > 9223372036854775807 ∨ n < -9223372036854775808 then
          (.error .rangeError, v)
        else if n > 2147483647 ∨ n < -2147483648 then
          (bindBytes (nameType key 0x12) (intLE 8 n), v)
        else
          (bindBytes (nameType key 0x10) (intLE 4 n), v)
      | .vbool b => (bindBytes (nameType key 0x08) [if b then 1 else 0], v)
      | .vdouble bits => (bindBytes (nameType key 0x01) (natLE 8 bits), v)
      | .vnil => (bindBytes (nameType key 0x0A) [], v)
      | .vdoc d =>
        match nameType key 0x03 with
        | .error e => (.error e, v)
        | .ok nt =>
          let dropStr := d.hasKey (.kstr idKey) && d.hasKey (.ksym idKey)
          match docLoop ck true dropStr d with
          | (.error e, d2) => (.error e, .vdoc d2)
          | (.ok body, d2) =>
            match docFrame body with
            | .error e => (.error e, .vdoc d2)
            | .ok bs => (.ok (nt ++ bs), .vdoc d2)
      | .varray l =>
        match nameType key 0x04 with
        | .error e => (.error e, v)
        | .ok nt =>
          match arrLoop ck 0 l with
          | (.error e, l2) => (.error e, .varray l2)
          | (.ok body, l2) => (.ok (nt ++ subFrame body), .varray l2)
      | .vstring s =>
        match nameType key 0x02 with
        | .error e => (.error e, v)
        | .ok nt => (.ok (nt ++ natLE 4 (s.length + 1) ++ s ++ [0]), v)
      | .vcode code scope =>
        match nameType key 0x0F with
        | .error e => (.error e, v)
        | .ok nt =>
          let dropStr := scope.hasKey (.kstr idKey) && scope.hasKey (.ksym idKey)
          match docLoop false true dropStr scope with
          | (.error e, s2) => (.error e, .vcode code s2)
          | (.ok sbody, s2) =>
            match docFrame sbody with
            | .error e => (.error e, .vcode code s2)
            | .ok sdoc =>
              let inner := natLE 4 (code.length + 1) ++ code ++ [0] ++ sdoc
              (.ok (nt ++ natLE 4 (4 + inner.length) ++ inner), .vcode code s2)
      | .vsymbol s =>
        let t := s.takeWhile (fun b => b != 0)
        match nameType key 0x0E with
        | .error e => (.error e, v)
        | .ok nt => (.ok (nt ++ natLE 4 (t.length + 1) ++ t ++ [0]), v)
      | .vbinary st data =>
        match nameType key 0x05 with
        | .error e => (.error e, v)
        | .ok nt =>
          if st % 256 == 2 then
            (.ok (nt ++ natLE 4 (data.length + 4) ++ [2] ++ natLE 4 data.length ++ data), v)
          else
            (.ok (nt ++ natLE 4 data.length ++ [st % 256] ++ data), v)
      | .objid bs =>
        match nameType key 0x07 with
        | .error e => (.error e, v)
        | .ok nt => (.ok (nt ++ (bs.take 12).map (fun b => b % 256)), v)
      | .vdbref ns oid =>
        match nameType key 0x03 with
        | .error e => (.error e, v)
        | .ok nt =>
          match writeElement false false (.kstr refKey) ns with
          | (.error e, ns2) => (.error e, .vdbref ns2 oid)
          | (.ok b1, ns2) =>
            match writeElement false false (.kstr [36, 105, 100]) oid with
            | (.error e, oid2) => (.error e, .vdbref ns2 oid2)
            | (.ok b2, oid2) => (.ok (nt ++ subFrame (b1 ++ b2)), .vdbref ns2 oid2)
      | .vmaxkey => (bindBytes (nameType key 0x7F) [], v)
      | .vminkey => (bindBytes (nameType key 0xFF) [], v)
      | .vtime ms => (bindBytes (nameType key 0x09) (intLE 8 ms), v)
      | .vregex pat fi fm fx extra =>
        match nameType key 0x0B with
        | .error e => (.error e, v)
        | .ok nt =>
          if pat.contains 0 then (.error .invalidDocument, v)
          else
            (.ok (nt ++ pat ++ [0] ++ regexFlags fi fm fx ++ sSort extra ++ [0]), v)

/-- The ordered element traversal of write_doc. dropStr marks a pending
rb_hash_delete of the first string "_id" entry (performed by write_doc
before traversing, when the hash holds "_id" both as string and symbol):
that entry is neither emitted nor kept in the returned document. -/
def docLoop (ck : Bool) (allowId : Bool) (dropStr : Bool) (d : Doc) :
    Except SErr Bytes × Doc :=
  match d with
  | .dnil => (.ok [], .dnil)
  | .dcons k v rest =>
    if dropStr && k == RKey.kstr idKey then
      docLoop ck allowId false rest
    else
      match writeElement ck allowId k v with
      | (.error e, v2) => (.error e, .dcons k v2 (dropD dropStr rest))
      | (.ok b1, v2) =>
        match docLoop ck allowId dropStr rest with
        | (.error e, rest2) => (.error e, .dcons k v2 rest2)
        | (.ok b2, rest2) => (.ok (b1 ++ b2), .dcons k v2 rest2)

/-- The array element loop of write_element_allow_id: elements are written
via write_element (allow_id = 0) under their decimal index keys. -/
def arrLoop (ck : Bool) (i : Nat) (l : VList) : Except SErr Bytes × VList :=
  match l with
  | .lnil => (.ok [], .lnil)
  | .lcons v rest =>
    match writeElement ck false (.kstr (decStr i)) v with
    | (.error e, v2) => (.error e, .lcons v2 rest)
    | (.ok b1, v2) =>
      match arrLoop ck (i + 1) rest with
      | (.error e, rest2) => (.error e, .lcons v2 rest2)
      | (.ok b2, rest2) => (.ok (b1 ++ b2), .lcons v2 rest2)

end

/-- The move_id path of write_doc: emit the value stored under the given
"_id" key (string or symbol spelling) with allow_id = 1, leaving the rest
of the document in place. -/
def emitId (ck : Bool) (k : RKey) (d : Doc) : Except SErr Bytes × Doc :=
  match d with
  | .dnil => (.ok [], .dnil)
  | .dcons k2 v rest =>
    if k2 == k then
      match writeElement ck true k v with
      | (.error e, v2) => (.error e, .dcons k2 v2 rest)
      | (.ok b, v2) => (.ok b, .dcons k2 v2 rest)
    else
      match emitId ck k rest with
      | (r, rest2) => (r, .dcons k2 v rest2)

/-- The body bytes of the top-level write_doc call: the move_id handling
followed by the ordered element traversal, before framing. With move_id
true, an "_id" entry (string spelling first, then symbol) is emitted first
and the traversal runs with allow_id = 0, skipping every "_id" key; with
move_id false, the traversal runs with allow_id = 1 after the duplicate
string "_id" entry is deleted when both spellings are present. -/
def topBody (ck mid : Bool) (d : Doc) : Except SErr Bytes × Doc :=
  if mid then
    if d.hasKey (.kstr idKey) then
      match emitId ck (.kstr idKey) d with
      | (.error e, d1) => (.error e, d1)
      | (.ok b1, d1) =>
        match docLoop ck false false d1 with
        | (.error e, d2) => (.error e, d2)
        | (.ok b2, d2) => (.ok (b1 ++ b2), d2)
    else if d.hasKey (.ksym idKey) then
      match emitId ck (.ksym idKey) d with
      | (.error e, d1) => (.error e, d1)
      | (.ok b1, d1) =>
        match docLoop ck false false d1 with
        | (.error e, d2) => (.error e, d2)
        | (.ok b2, d2) => (.ok (b1 ++ b2), d2)
    else
      docLoop ck false false d
  else
    let dropStr := d.hasKey (.kstr idKey) && d.hasKey (.ksym idKey)
    docLoop ck true dropStr d

/-- method_serialize / write_doc: serialize a document under the two flags,
returning the BSON bytes and the document as the call leaves it. -/
def serialize (d : Doc) (ck mid : Bool) : Except SErr Bytes × Doc :=
  match topBody ck mid d with
  | (.error e, d1) => (.error e, d1)
  | (.ok body, d1) =>
    match docFrame body with
    | .error e => (.error e, d1)
    | .ok bs => (.ok bs, d1)

/-- One byte of the buffer. An out-of-range read yields 0 (the C code's
behaviour there is undefined). -/
def byteAt (buf : Bytes) (pos : Nat) : Nat := (buf.drop pos).headD 0

/-- The n-byte window of the buffer at a position. -/
def window (buf : Bytes) (pos n : Nat) : Bytes := (buf.drop pos).take n

/-- Little-endian value of a byte list. -/
def leVal : Bytes → Nat
  | [] => 0
  | b :: rest => b % 256 + 256 * leVal rest

/-- memcpy of a 4-byte int field, read as a signed 32-bit value. -/
def readI32 (buf : Bytes) (pos : Nat) : Int :=
  let m := leVal (window buf pos 4)
  if m < 2147483648 then (m : Int) else (m : Int) - 4294967296

/-- memcpy of an 8-byte long long field, read as a signed 64-bit value. -/
def readI64 (buf : Bytes) (pos : Nat) : Int :=
  let m := leVal (window buf pos 8)
  if m < 9223372036854775808 then (m : Int) else (m : Int) - 18446744073709551616

/-- The C string at a position: the bytes up to the first NUL. -/
def cstrAt (buf : Bytes) (pos : Nat) : Bytes :=
  (buf.drop pos).takeWhile (fun b => b != 0)

/-- strcmp(buffer + pos, "$ref") == 0: the five bytes at pos spell the
characters of "$ref" followed by NUL. -/
def isRefAt (buf : Bytes) (pos : Nat) : Bool :=
  window buf pos 5 == [36, 114, 101, 102, 0]

/-- Deserializer failure: the unknown-tag rb_raise of get_value (a
TypeError naming the tag), or an exhausted recursion bound (never reached
at the bound deserialize passes). -/
inductive DErr : Type where
  | noDecoder (tag : Int)
  | fuelOut
  deriving DecidableEq

/-- hash[name] = value on the ordered hash built by elements_to_hash:
replace the value at an existing key, else append the pair. -/
def docInsert : Doc → Bytes → Val → Doc
  | .dnil, k, v => .dcons (.kstr k) v .dnil
  | .dcons k2 v2 rest, k, v =>
    if k2 == RKey.kstr k then .dcons k2 v rest
    else .dcons k2 v2 (docInsert rest k v)

/-- The flag-letter loop of get_value case 11: the letters of i, m, x set
the corresponding option, other letters are collected (at most 9) into the
extra options string. -/
def regexFold : Bytes → Bool → Bool → Bool → Bytes → Bool × Bool × Bool × Bytes
  | [], fi, fm, fx, ex => (fi, fm, fx, ex)
  | b :: rest, fi, fm, fx, ex =>
    if b == 105 then regexFold rest true fm fx ex
    else if b == 109 then regexFold rest fi true fx ex
    else if b == 120 then regexFold rest fi fm true ex
    else if ex.length < 9 then regexFold rest fi fm fx (ex ++ [b])
    else regexFold rest fi fm fx ex

mutual

/-- get_value from cbson.c: decode one payload at a position given the
element tag (read as a signed char), returning the value and the position
after it. The first argument after the buffer is a recursion bound. -/
def getValue (buf : Bytes) : Nat → Nat → Int → Except DErr (Val × Nat)
  | 0, _, _ => .error .fuelOut
  | fuel + 1, pos, type =>
    match type with
    | -1 => .ok (.vminkey, pos)
    | 1 => .ok (.vdouble (leVal (window buf pos 8)), pos + 8)
    | 2 =>
      let vlen := ((readI32 buf pos) - 1).toNat
      .ok (.vstring (window buf (pos + 4) vlen), pos + 4 + vlen + 1)
    | 13 =>
      let vlen := ((readI32 buf pos) - 1).toNat
      .ok (.vstring (window buf (pos + 4) vlen), pos + 4 + vlen + 1)
    | 3 =>
      let size := (readI32 buf pos).toNat
      if isRefAt buf (pos + 5) then
        let off1 := pos + 10
        let clen := ((readI32 buf off1) - 1).toNat
        let coll := window buf (off1 + 4) clen
        let off2 := off1 + 4 + clen + 1
        let idType := sByte (byteAt buf off2)
        match getValue buf fuel (off2 + 5) idType with
        | .error e => .error e
        | .ok (idv, _) => .ok (.vdbref (.vstring coll) idv, pos + size)
      else
        match elemsLoop buf fuel (pos + 4) (pos + 4 + (size - 5)) .dnil with
        | .error e => .error e
        | .ok d => .ok (.vdoc d, pos + size)
    | 4 =>
      let size := (readI32 buf pos).toNat
      match arrDecLoop buf fuel (pos + 4) (pos + size - 1) with
      | .error e => .error e
      | .ok (l, pos2) => .ok (.varray l, pos2 + 1)
    | 5 =>
      let len := (readI32 buf pos).toNat
      let st := byteAt buf (pos + 4) % 256
      let data :=
        if st == 2 then window buf (pos + 9) (len - 4) else window buf (pos + 5) len
      .ok (.vbinary st data, pos + len + 5)
    | 6 => .ok (.vnil, pos)
    | 7 => .ok (.objid (window buf pos 12), pos + 12)
    | 8 => .ok (.vbool (byteAt buf pos != 0), pos + 1)
    | 9 => .ok (.vtime (readI64 buf pos), pos + 8)
    | 10 => .ok (.vnil, pos)
    | 11 =>
      let pat := cstrAt buf pos
      let p2 := pos + pat.length + 1
      let flags := cstrAt buf p2
      match regexFold flags false false false [] with
      | (fi, fm, fx, ex) => .ok (.vregex pat fi fm fx ex, p2 + flags.length + 1)
    | 12 =>
      let clen := ((readI32 buf pos) - 1).toNat
      let coll := window buf (pos + 4) clen
      let p2 := pos + 4 + clen + 1
      .ok (.vdbref (.vstring coll) (.objid (window buf p2 12)), p2 + 12)
    | 14 =>
      let vlen := (readI32 buf pos).toNat
      .ok (.vsymbol (cstrAt buf (pos + 4)), pos + vlen + 4)
    | 15 =>
      let p1 := pos + 4
      let clen := ((readI32 buf p1) - 1).toNat
      let code := window buf (p1 + 4) clen
      let p2 := p1 + 4 + clen + 1
      let ssize := (readI32 buf p2).toNat
      match elemsLoop buf fuel (p2 + 4) (p2 + 4 + (ssize - 5)) .dnil with
      | .error e => .error e
      | .ok scope => .ok (.vcode code scope, p2 + ssize)
    | 16 => .ok (.vint (readI32 buf pos), pos + 4)
    | 17 =>
      .ok (.varray (.lcons (.vint (readI32 buf pos))
        (.lcons (.vint (readI32 buf (pos + 4))) .lnil)), pos + 8)
    | 18 => .ok (.vint (readI64 buf pos), pos + 8)
    | 127 => .ok (.vmaxkey, pos)
    | t => .error (.noDecoder t)
termination_by structural fuel => fuel

/-- elements_to_hash from cbson.c: read (tag, key, value) triples while the
position is below the stop offset, entering each into the ordered hash. -/
def elemsLoop (buf : Bytes) : Nat → Nat → Nat → Doc → Except DErr Doc
  | 0, _, _, _ => .error .fuelOut
  | fuel + 1, pos, stop, acc =>
    if pos < stop then
      let type := sByte (byteAt buf pos)
      let name := cstrAt buf (pos + 1)
      match getValue buf fuel (pos + 1 + name.length + 1) type with
      | .error e => .error e
      | .ok (value, pos2) => elemsLoop buf fuel pos2 stop (docInsert acc name value)
    else .ok acc
termination_by structural fuel => fuel

/-- The array-reading loop of get_value case 4: keys are skipped, values
collected in order. -/
def arrDecLoop (buf : Bytes) : Nat → Nat → Nat → Except DErr (VList × Nat)
  | 0, _, _ => .error .fuelOut
  | fuel + 1, pos, endP =>
    if pos < endP then
      let type := sByte (byteAt buf pos)
      let ksize := (cstrAt buf (pos + 1)).length
      match getValue buf fuel (pos + 1 + ksize + 1) type with
      | .error e => .error e
      | .ok (value, pos2) =>
        match arrDecLoop buf fuel pos2 endP with
        | .error e => .error e
        | .ok (rest, pos3) => .ok (.lcons value rest, pos3)
    else .ok (.lnil, pos)
termination_by structural fuel => fuel

end

/-- method_deserialize: the element parse starts after the leading 4-byte
length and stops before the trailing NUL (the byte count is reduced by 5).
The recursion bound passed exceeds what any buffer of this length can
consume. -/
def deserialize (bson : Bytes) : Except DErr Doc :=
  elemsLoop bson (bson.length + 1) 4 (4 + (bson.length - 5)) .dnil

/-- The tag values get_value has a case for: -1, 1 through 18, and 127
(as signed chars: 0xFF, 0x01 through 0x12, 0x7F). -/
def validTagB (t : Int) : Bool :=
  t == -1 || (1 ≤ t && t ≤ 18) || t == 127

/-- A key accepted by the check_keys validation: it does not start with
the dollar-sign byte and does not contain the dot byte. -/
def validKeyB (key : Bytes) : Bool :=
  !(key.head? == some 36) && !(key.contains 46)

mutual

/-- Every key that a check_keys = true serialization of this value reaches
is valid. A nested hash recurses (under write_doc's duplicate "_id" drop);
arrays recurse into their values (their decimal index keys are always
valid); a Mongo::Code scope and everything below a Mongo::DBRef are
serialized with check_keys false, so nothing there is required. -/
def Val.keysOk : Val → Bool
  | .vdoc d => Doc.keysOkL true (d.hasKey (.kstr idKey) && d.hasKey (.ksym idKey)) d
  | .varray a => VList.keysOk a
  | _ => true

/-- Keys reached by the element traversal of write_doc, with the allowId
flag (an allowId = 0 traversal skips keys spelling "_id" entirely) and the
pending duplicate string "_id" drop. -/
def Doc.keysOkL : Bool → Bool → Doc → Bool
  | _, _, .dnil => true
  | aid, ds, .dcons k v rest =>
    if ds && k == RKey.kstr idKey then Doc.keysOkL aid false rest
    else if !aid && cstrIsId k.bytes then Doc.keysOkL aid ds rest
    else validKeyB k.bytes && Val.keysOk v && Doc.keysOkL aid ds rest

/-- Keys reached below each member of an array. -/
def VList.keysOk : VList → Bool
  | .lnil => true
  | .lcons v rest => Val.keysOk v && VList.keysOk rest

end

/-- rb_hash_aref on the modelled hash. -/
def Doc.lookup : Doc → RKey → Option Val
  | .dnil, _ => none
  | .dcons k2 v rest, k => if k2 == k then some v else rest.lookup k

/-- Every key that a check_keys = true serialize call reaches, at the top
level: with move_id the value moved to the front is reached and the
traversal skips "_id" keys; without it the traversal reaches everything
left after the duplicate string "_id" drop. -/
def topKeysOk (mid : Bool) (d : Doc) : Bool :=
  if mid then
    (match d.lookup (.kstr idKey) with
     | some v => Val.keysOk v
     | none =>
       match d.lookup (.ksym idKey) with
       | some v => Val.keysOk v
       | none => true) && Doc.keysOkL false false d
  else Doc.keysOkL true (d.hasKey (.kstr idKey) && d.hasKey (.ksym idKey)) d

mutual

/-- No hash anywhere in this value holds "_id" both as a string key and as
a symbol key (so no traversal of it triggers write_doc's rb_hash_delete). -/
def Val.noDualId : Val → Bool
  | .vdoc d => !(d.hasKey (.kstr idKey) && d.hasKey (.ksym idKey)) && Doc.noDualId d
  | .varray a => VList.noDualId a
  | .vcode _ scope =>
    !(scope.hasKey (.kstr idKey) && scope.hasKey (.ksym idKey)) && Doc.noDualId scope
  | .vdbref ns oid => Val.noDualId ns && Val.noDualId oid
  | _ => true

/-- noDualId for every value of a document. -/
def Doc.noDualId : Doc → Bool
  | .dnil => true
  | .dcons _ v rest => Val.noDualId v && Doc.noDualId rest

/-- noDualId for every member of an array. -/
def VList.noDualId : VList → Bool
  | .lnil => true
  | .lcons v rest => Val.noDualId v && VList.noDualId rest

end

/-- The ordered pairs of a document. -/
def Doc.pairs : Doc → List (RKey × Val)
  | .dnil => []
  | .dcons k v rest => (k, v) :: rest.pairs

/-- The element sequence the specification describes for one document:
with move_id, the "_id" entry (string spelling preferred) first, then the
pairs whose keys do not spell "_id"; without move_id, the pairs in order
after the duplicate string "_id" entry is dropped when both spellings are
present. Modelled from the spec, for comparison with the code's traversal. -/
def emitSeq (mid : Bool) (d : Doc) : List (RKey × Val) :=
  if mid then
    (match d.lookup (.kstr idKey) with
     | some v => [(RKey.kstr idKey, v)]
     | none =>
       match d.lookup (.ksym idKey) with
       | some v => [(RKey.ksym idKey, v)]
       | none => []) ++
    d.pairs.filter (fun kv => !cstrIsId kv.1.bytes)
  else if d.hasKey (.kstr idKey) && d.hasKey (.ksym idKey) then
    (d.eraseKey (.kstr idKey)).pairs
  else d.pairs

/-- Write a plain pair sequence in order, each element with allow_id. -/
def writeSeq (ck : Bool) : List (RKey × Val) → Except SErr Bytes
  | [] => .ok []
  | (k, v) :: rest =>
    match (writeElement ck true k v).1 with
    | .error e => .error e
    | .ok b1 =>
      match writeSeq ck rest with
      | .error e => .error e
      | .ok b2 => .ok (b1 ++ b2)

/-- A document holding "_id" under both its string and its symbol
spelling, with distinct values. -/
def dualIdDoc : Doc :=
  .dcons (.kstr idKey) (.vint 1) (.dcons (.ksym idKey) (.vint 2) .dnil)

/-- A binary payload large enough to push a document over the 4MiB limit. -/
def bigData : Bytes := List.replicate 4194300 0

/-- A document whose encoding exceeds the 4MiB limit. -/
def bigDoc : Doc := .dcons (.kstr [97]) (.vbinary 0 bigData) .dnil

/-- The body bytes of bigDoc: one binary element under the key a. -/
def bigBody : Bytes := [5, 97, 0] ++ natLE 4 bigData.length ++ [0] ++ bigData

/-- The first key of a document does not spell "$ref" (such a nested
document is mistaken for a DBRef by the deserializer). -/
def Doc.firstKeyNotRef : Doc → Bool
  | .dnil => true
  | .dcons k _ _ => !(k.bytes == refKey)

/-- Some entry of the document has the given key bytes after symbol
normalization. -/
def Doc.hasKeyBytes : Doc → Bytes → Bool
  | .dnil, _ => false
  | .dcons k2 _ rest, s => (k2.bytes == s) || rest.hasKeyBytes s

mutual

/-- A value of the supported variant set in the form that round-trips:
string keys only, NUL-free where a C-string read occurs, payload widths in
range, nested plain documents not spoofing the "$ref" detection, regex
extra flags NUL-free and i/m/x-free, at most 9 of them, already in sorted
order, and DBRef namespaces plain strings. -/
def Val.wf : Val → Bool
  | .vint _ => true
  | .vbool _ => true
  | .vdouble bits => decide (bits < 18446744073709551616)
  | .vnil => true
  | .vdoc d => d.firstKeyNotRef && Doc.wf d
  | .varray a => VList.wf a
  | .vstring _ => true
  | .vcode _ scope => Doc.wf scope
  | .vsymbol s => !(s.contains 0)
  | .vbinary st _ => decide (st < 256)
  | .objid ob => (ob.length == 12) && ob.all (fun b => decide (b < 256))
  | .vdbref ns oid =>
    (match ns with | .vstring _ => true | _ => false) && Val.wf oid
  | .vmaxkey => true
  | .vminkey => true
  | .vtime ms =>
    decide (-9223372036854775808 ≤ ms) && decide (ms ≤ 9223372036854775807)
  | .vregex _ _ _ _ extra =>
    !(extra.contains 0) && !(extra.contains 105) && !(extra.contains 109) &&
      !(extra.contains 120) && decide (extra.length ≤ 9) && (sSort extra == extra)

/-- A document in round-trip form: every key a NUL-free string key, no two
keys equal, every value well formed. -/
def Doc.wf : Doc → Bool
  | .dnil => true
  | .dcons k v rest =>
    (match k with | .kstr s => !(s.contains 0) | .ksym _ => false) &&
      !(rest.hasKeyBytes k.bytes) && Val.wf v && Doc.wf rest

/-- Array members in round-trip form. -/
def VList.wf : VList → Bool
  | .lnil => true
  | .lcons v rest => Val.wf v && VList.wf rest

end

mutual

/-- A bound on the number of get_value and loop steps needed to decode this
value's payload. -/
def Val.fuelN : Val → Nat
  | .vdoc d => 1 + Doc.fuelN d
  | .varray a => 1 + VList.fuelN a
  | .vcode _ scope => 1 + Doc.fuelN scope
  | .vdbref _ oid => 1 + Val.fuelN oid
  | _ => 1

/-- A bound on the steps needed by elements_to_hash over this document. -/
def Doc.fuelN : Doc → Nat
  | .dnil => 1
  | .dcons _ v rest => 1 + Val.fuelN v + Doc.fuelN rest

/-- A bound on the steps needed by the array read loop over this list. -/
def VList.fuelN : VList → Nat
  | .lnil => 1
  | .lcons v rest => 1 + Val.fuelN v + VList.fuelN rest

end

/-- Concatenation of two documents. -/
def Doc.append : Doc → Doc → Doc
  | .dnil, d2 => d2
  | .dcons k v rest, d2 => .dcons k v (rest.append d2)

/-- No key of the second document occurs (by its byte spelling) in the
first: inserting the second's pairs into the first appends them. -/
def Doc.freshKeys : Doc → Doc → Bool
  | _, .dnil => true
  | acc, .dcons k _ rest => !(acc.hasKeyBytes k.bytes) && acc.freshKeys rest

/-! Sanity checks against the wire format, and supporting lemmas. -/

example :
    (serialize (.dcons (.kstr [97]) (.vint 1) .dnil) false false).1 =
      .ok [12, 0, 0, 0, 0x10, 97, 0, 1, 0, 0, 0, 0] := by decide

example :
    deserialize [12, 0, 0, 0, 0x10, 97, 0, 1, 0, 0, 0, 0] =
      .ok (.dcons (.kstr [97]) (.vint 1) .dnil) := by decide

example : (serialize .dnil false false).1 = .ok [5, 0, 0, 0, 0] := by decide

example :
    (serialize (.dcons (.kstr [120]) (.vstring [104, 105]) .dnil) false false).1 =
      .ok [15, 0, 0, 0, 2, 120, 0, 3, 0, 0, 0, 104, 105, 0, 0] := by decide

example :
    deserialize [15, 0, 0, 0, 2, 120, 0, 3, 0, 0, 0, 104, 105, 0, 0] =
      .ok (.dcons (.kstr [120]) (.vstring [104, 105]) .dnil) := by decide

theorem natLE_length (w : Nat) : ∀ n, (natLE w n).length = w := by
  induction w with
  | zero => intro n; rfl
  | succ w ih => intro n; simp [natLE, ih]

theorem intLE_length (w : Nat) (v : Int) : (intLE w v).length = w := by
  simp [intLE, natLE_length]

/-- C2: an integer element in the int32 range is emitted with tag 0x10 and
a 4-byte little-endian payload; an integer beyond it but in the int64
range with tag 0x12 and an 8-byte little-endian payload; an integer beyond
the int64 range raises RangeError. -/
theorem int_element_encoding (k : Bytes) (n : Int) (h0 : (0 : Nat) ∉ k) :
    (-2147483648 ≤ n ∧ n ≤ 2147483647 →
      (writeElement false true (.kstr k) (.vint n)).1 =
        .ok (0x10 :: (k ++ [0]) ++ intLE 4 n)) ∧
    ((n < -2147483648 ∨ 2147483647 < n) →
      -9223372036854775808 ≤ n → n ≤ 9223372036854775807 →
      (writeElement false true (.kstr k) (.vint n)).1 =
        .ok (0x12 :: (k ++ [0]) ++ intLE 8 n)) ∧
    ((n < -9223372036854775808 ∨ 9223372036854775807 < n) →
      (writeElement false true (.kstr k) (.vint n)).1 = .error .rangeError) := by
  refine ⟨?_, ?_, ?_⟩
  · rintro ⟨h1, h2⟩
    rw [writeElement]
    simp only [Bool.not_true, Bool.false_and, Bool.false_eq_true, if_false, keyCheck]
    rw [if_neg (by omega), if_neg (by omega)]
    simp [nameType, bindBytes, h0, RKey.bytes]
  · rintro h1 h2 h3
    rw [writeElement]
    simp only [Bool.not_true, Bool.false_and, Bool.false_eq_true, if_false, keyCheck]
    rw [if_neg (by omega), if_pos (by omega)]
    simp [nameType, bindBytes, h0, RKey.bytes]
  · rintro h1
    rw [writeElement]
    simp only [Bool.not_true, Bool.false_and, Bool.false_eq_true, if_false, keyCheck]
    rw [if_pos (by omega)]

/-- C2 witness: concrete instances of the three ranges. -/
theorem int_element_encoding_witness :
    ((0 : Nat) ∉ [97] ∧
      (writeElement false true (.kstr [97]) (.vint 5)).1 =
        .ok (0x10 :: ([97] ++ [0]) ++ intLE 4 5)) ∧
    (writeElement false true (.kstr [97]) (.vint 4294967296)).1 =
      .ok (0x12 :: ([97] ++ [0]) ++ intLE 8 4294967296) ∧
    (writeElement false true (.kstr [97]) (.vint 18446744073709551616)).1 =
      .error .rangeError :=
  ⟨⟨by decide, (int_element_encoding [97] 5 (by decide)).1 (by decide)⟩,
    (int_element_encoding [97] 4294967296 (by decide)).2.1
      (by decide) (by decide) (by decide),
    (int_element_encoding [97] 18446744073709551616 (by decide)).2.2 (by decide)⟩

/-- C10: the empty key passes the check_keys validation for either flag
value (the dollar rule applies only to nonempty keys and the empty key
contains no dot byte), and a document holding an int under the empty key
serializes successfully with check_keys = true. -/
theorem empty_key_accepted :
    (∀ ck, keyCheck ck [] = .ok ()) ∧
    (serialize (.dcons (.kstr []) (.vint 7) .dnil) true false).1 =
      .ok [11, 0, 0, 0, 0x10, 0, 7, 0, 0, 0, 0] :=
  ⟨fun ck => by cases ck <;> rfl, by decide⟩

theorem subFrame_shape (body : Bytes) :
    (subFrame body).take 4 = natLE 4 (subFrame body).length ∧
    (subFrame body).getLast? = some 0 := by
  constructor
  · rw [subFrame]
    have hlen : (natLE 4 (4 + body.length + 1) ++ (body ++ [0])).length =
        4 + body.length + 1 := by
      simp [natLE_length]
      omega
    rw [List.append_assoc, hlen]
    exact List.take_left' (natLE_length 4 _)
  · rw [subFrame, List.append_assoc]
    rw [show body ++ [0] = body ++ [0] ++ [] from by simp]
    simp

theorem docFrame_ok {body bs} (h : docFrame body = .ok bs) :
    bs = subFrame body ∧ 4 + body.length + 1 ≤ 4194304 := by
  rw [docFrame] at h
  split at h
  · exact absurd h (by simp)
  · rename_i hle
    cases h
    exact ⟨rfl, by omega⟩

theorem serialize_ok_split {d : Doc} {ck mid : Bool} {bs : Bytes} {d2 : Doc}
    (h : serialize d ck mid = (.ok bs, d2)) :
    ∃ body, topBody ck mid d = (.ok body, d2) ∧ docFrame body = .ok bs := by
  rcases htb : topBody ck mid d with ⟨r, d1⟩
  cases r with
  | error e => rw [serialize, htb] at h; simp at h
  | ok body =>
    rw [serialize, htb] at h
    dsimp only at h
    rcases hfr : docFrame body with e | bs2
    · rw [hfr] at h
      simp at h
    · rw [hfr] at h
      simp at h
      exact ⟨body, by rw [h.2], by rw [hfr, h.1]⟩

/-- C7: the top-level output of serialize carries its own total byte length
as its leading 4-byte little-endian field and ends with the NUL byte; the
same holds of the bytes of every document framed by write_doc (every
embedded hash and Code scope goes through docFrame) and of every framed
array or DBRef body (subFrame). -/
theorem doc_length_framing :
    (∀ d ck mid bs d2, serialize d ck mid = (.ok bs, d2) →
      bs.take 4 = natLE 4 bs.length ∧ bs.getLast? = some 0) ∧
    (∀ body bs, docFrame body = .ok bs →
      bs.take 4 = natLE 4 bs.length ∧ bs.getLast? = some 0) ∧
    (∀ body, (subFrame body).take 4 = natLE 4 (subFrame body).length ∧
      (subFrame body).getLast? = some 0) := by
  have hdf : ∀ body bs, docFrame body = .ok bs →
      bs.take 4 = natLE 4 bs.length ∧ bs.getLast? = some 0 := by
    intro body bs h
    rw [(docFrame_ok h).1]
    exact subFrame_shape body
  refine ⟨?_, hdf, subFrame_shape⟩
  intro d ck mid bs d2 h
  obtain ⟨body, hbody, hframe⟩ := serialize_ok_split h
  exact hdf body bs hframe

/-- C7 witness: the framing facts at the empty document. -/
theorem doc_length_framing_witness :
    ([5, 0, 0, 0, 0] : Bytes).take 4 = natLE 4 ([5, 0, 0, 0, 0] : Bytes).length ∧
    ([5, 0, 0, 0, 0] : Bytes).getLast? = some 0 :=
  doc_length_framing.1 .dnil false false [5, 0, 0, 0, 0] .dnil (by decide)

/-- C8: a successful serialize call returns at most 4MiB of bytes, and a
call whose top-level body pushes the total over 4MiB fails with
InvalidDocument. -/
theorem document_size_limit :
    (∀ d ck mid bs d2, serialize d ck mid = (.ok bs, d2) → bs.length ≤ 4194304) ∧
    (∀ d ck mid body d1, topBody ck mid d = (.ok body, d1) →
      4194304 < 4 + body.length + 1 →
      (serialize d ck mid).1 = .error .invalidDocument) := by
  constructor
  · intro d ck mid bs d2 h
    obtain ⟨body, hbody, hframe⟩ := serialize_ok_split h
    obtain ⟨rfl, hle⟩ := docFrame_ok hframe
    rw [subFrame]
    simp [natLE_length]
    omega
  · intro d ck mid body d1 hbody hover
    rw [serialize, hbody]
    dsimp only
    rw [docFrame, if_pos hover]

theorem big_topBody : topBody false false bigDoc = (.ok bigBody, bigDoc) := by
  rw [topBody]
  simp only [Bool.false_eq_true, if_false]
  rw [show Doc.hasKey bigDoc (.kstr idKey) = false from rfl]
  simp only [Bool.false_and]
  rw [bigDoc, docLoop]
  simp only [Bool.false_and, Bool.not_true, if_false]
  rw [writeElement]
  simp [keyCheck, nameType, bindBytes, cstrIsId, idKey, bigBody, RKey.bytes, docLoop]

theorem big_over_limit : 4194304 < 4 + bigBody.length + 1 := by
  rw [bigBody, bigData, List.length_append, List.length_append, List.length_append,
    natLE_length, List.length_replicate]
  norm_num

/-- C8 witness: a document over the limit is rejected with InvalidDocument,
and a small document is within the limit. -/
theorem document_size_limit_witness :
    ([5, 0, 0, 0, 0] : Bytes).length ≤ 4194304 ∧
    (serialize bigDoc false false).1 = .error .invalidDocument :=
  ⟨document_size_limit.1 .dnil false false [5, 0, 0, 0, 0] .dnil (by decide),
    document_size_limit.2 bigDoc false false bigBody bigDoc big_topBody big_over_limit⟩

theorem mem_sInsert (x b : Nat) : ∀ l : Bytes, x ∈ sInsert b l ↔ x = b ∨ x ∈ l := by
  intro l
  induction l with
  | nil => simp [sInsert]
  | cons c rest ih =>
    rw [sInsert]
    split
    · simp [or_comm, or_assoc, or_left_comm]
    · simp only [List.mem_cons, ih]
      tauto

theorem sorted_sInsert (b : Nat) :
    ∀ l : Bytes, (l.Sorted fun a c => sByte a ≤ sByte c) →
      ((sInsert b l).Sorted fun a c => sByte a ≤ sByte c) := by
  intro l
  induction l with
  | nil => intro h; simp [sInsert]
  | cons c rest ih =>
    intro h
    obtain ⟨hc, hrest⟩ := List.pairwise_cons.mp h
    rw [sInsert]
    split
    · rename_i hle
      refine List.pairwise_cons.mpr ⟨?_, h⟩
      intro x hx
      rcases List.mem_cons.mp hx with rfl | hx
      · exact hle
      · exact le_trans hle (hc x hx)
    · rename_i hgt
      have hcb : sByte c ≤ sByte b := le_of_not_le hgt
      refine List.pairwise_cons.mpr ⟨?_, ih hrest⟩
      intro x hx
      rcases (mem_sInsert x b rest).mp hx with rfl | hx
      · exact hcb
      · exact hc x hx

theorem sorted_sSort : ∀ l : Bytes, (sSort l).Sorted fun a c => sByte a ≤ sByte c := by
  intro l
  induction l with
  | nil => simp [sSort]
  | cons b rest ih => exact sorted_sInsert b (sSort rest) ih

/-- C4 fails on the code: a regex value carrying the extended option and the
extra flag letter a is emitted with flag bytes x then a (the qsort in the
T_REGEXP case covers only the extra_options_str region, not the whole flag
string), which is not in non-decreasing order. -/
theorem regex_flag_order_counterexample :
    (writeElement false true (.kstr [107]) (.vregex [112] false false true [97])).1 =
      .ok ([11, 107, 0] ++ ([112] ++ [0]) ++ ([120, 97] ++ [0])) ∧
    ¬ ((120 : Nat) ≤ 97) := by decide

/-- C4 amended: the emitted flag byte string is the known option letters in
the fixed order i, m, x followed by the extra flag bytes sorted among
themselves (by signed char value, as cmp_char compares); when the value has
no extra flag letters the whole emitted flag string is in non-decreasing
order. -/
theorem regex_flag_emission (ck : Bool) (k : RKey) (pat : Bytes) (fi fm fx : Bool)
    (extra : Bytes) (bs : Bytes)
    (h : (writeElement ck true k (.vregex pat fi fm fx extra)).1 = .ok bs) :
    bs = 11 :: (k.bytes ++ [0]) ++ pat ++ [0] ++
      (regexFlags fi fm fx ++ sSort extra) ++ [0] ∧
    ((sSort extra).Sorted fun a c => sByte a ≤ sByte c) ∧
    (extra = [] →
      ((regexFlags fi fm fx ++ sSort extra).Sorted fun a c => sByte a ≤ sByte c)) := by
  refine ⟨?_, sorted_sSort extra, ?_⟩
  · rw [writeElement] at h
    simp only [Bool.not_true, Bool.false_and, Bool.false_eq_true, if_false] at h
    rcases hkc : keyCheck ck k.bytes with e | u
    · rw [hkc] at h; simp at h
    · rw [hkc] at h
      dsimp only at h
      rcases hnt : nameType k.bytes 11 with e | nt
      · rw [hnt] at h; simp at h
      · rw [hnt] at h
        dsimp only at h
        by_cases hp : pat.contains 0 = true
        · rw [if_pos hp] at h; simp at h
        · rw [if_neg hp] at h
          simp only [Except.ok.injEq] at h
          rw [nameType] at hnt
          by_cases hk0 : List.contains k.bytes 0 = true
          · rw [if_pos hk0] at hnt; simp at hnt
          · rw [if_neg hk0] at hnt
            simp only [Except.ok.injEq] at hnt
            subst hnt
            rw [← h]
            simp
  · intro he
    subst he
    rw [sSort]
    cases fi <;> cases fm <;> cases fx <;> simp [regexFlags] <;> decide

/-- C4 witness: the amended emission shape at a concrete regex element. -/
theorem regex_flag_emission_witness :
    [11, 0, 112, 0, 105, 98, 99, 0] =
      11 :: (([] : Bytes) ++ [0]) ++ [112] ++ [0] ++
        (regexFlags true false false ++ sSort [99, 98]) ++ [0] ∧
    ((sSort [99, 98]).Sorted fun a c => sByte a ≤ sByte c) ∧
    ([99, 98] = ([] : Bytes) →
      ((regexFlags true false false ++ sSort [99, 98]).Sorted
        fun a c => sByte a ≤ sByte c)) :=
  regex_flag_emission false (.kstr []) [112] true false false [99, 98]
    [11, 0, 112, 0, 105, 98, 99, 0] (by decide)

mutual

theorem writeElement_preserves (ck aid : Bool) (k : RKey) (v : Val)
    (h : Val.noDualId v = true) : (writeElement ck aid k v).2 = v := by
  rw [writeElement.eq_def]
  dsimp only
  split
  · rfl
  · rcases hkc : keyCheck ck k.bytes with e | u
    · rfl
    · cases v
      case vint n =>
        dsimp only
        split
        · rfl
        · split <;> rfl
      case vbinary st data =>
        dsimp only
        split
        · rfl
        · split <;> rfl
      case vregex pat fi fm fx extra =>
        dsimp only
        split
        · rfl
        · split <;> rfl
      case vdoc d =>
        rw [Val.noDualId] at h
        simp only [Bool.and_eq_true, Bool.not_eq_true'] at h
        obtain ⟨hdual, hnd⟩ := h
        dsimp only
        split
        · rfl
        · rw [hdual]
          have hdl := docLoop_preserves ck true d hnd
          rcases hd : docLoop ck true false d with ⟨r, d2⟩
          rw [hd] at hdl
          dsimp only at hdl
          cases r with
          | error e => dsimp only; rw [hdl]
          | ok body =>
            dsimp only
            cases docFrame body <;> dsimp only <;> rw [hdl]
      case varray a =>
        rw [Val.noDualId] at h
        dsimp only
        split
        · rfl
        · have hal := arrLoop_preserves ck 0 a h
          rcases ha : arrLoop ck 0 a with ⟨r, a2⟩
          rw [ha] at hal
          dsimp only at hal
          cases r <;> dsimp only <;> rw [hal]
      case vcode code scope =>
        rw [Val.noDualId] at h
        simp only [Bool.and_eq_true, Bool.not_eq_true'] at h
        obtain ⟨hdual, hnd⟩ := h
        dsimp only
        split
        · rfl
        · rw [hdual]
          have hdl := docLoop_preserves false true scope hnd
          rcases hd : docLoop false true false scope with ⟨r, s2⟩
          rw [hd] at hdl
          dsimp only at hdl
          cases r with
          | error e => dsimp only; rw [hdl]
          | ok body =>
            dsimp only
            cases docFrame body <;> dsimp only <;> rw [hdl]
      case vdbref ns oid =>
        rw [Val.noDualId] at h
        simp only [Bool.and_eq_true] at h
        obtain ⟨hns, hoid⟩ := h
        dsimp only
        split
        · rfl
        · have h1 := writeElement_preserves false false (.kstr refKey) ns hns
          rcases hw1 : writeElement false false (.kstr refKey) ns with ⟨r1, ns2⟩
          rw [hw1] at h1
          dsimp only at h1
          cases r1 with
          | error e => dsimp only; rw [h1]
          | ok b1 =>
            dsimp only
            have h2 := writeElement_preserves false false (.kstr [36, 105, 100]) oid hoid
            rcases hw2 : writeElement false false (.kstr [36, 105, 100]) oid with ⟨r2, oid2⟩
            rw [hw2] at h2
            dsimp only at h2
            cases r2 <;> dsimp only <;> rw [h1, h2]
      all_goals first | rfl | (dsimp only; split <;> rfl)

theorem docLoop_preserves (ck aid : Bool) (d : Doc)
    (h : Doc.noDualId d = true) : (docLoop ck aid false d).2 = d := by
  cases d with
  | dnil => rfl
  | dcons k v rest =>
    rw [Doc.noDualId] at h
    simp only [Bool.and_eq_true] at h
    obtain ⟨hv, hrest⟩ := h
    rw [docLoop]
    simp only [Bool.false_and, Bool.false_eq_true, if_false]
    have hwe := writeElement_preserves ck aid k v hv
    rcases hw : writeElement ck aid k v with ⟨r, v2⟩
    rw [hw] at hwe
    dsimp only at hwe
    cases r with
    | error e =>
      dsimp only
      rw [hwe, dropD]
      simp
    | ok b1 =>
      dsimp only
      have hdl := docLoop_preserves ck aid rest hrest
      rcases hd : docLoop ck aid false rest with ⟨r2, rest2⟩
      rw [hd] at hdl
      dsimp only at hdl
      cases r2 <;> dsimp only <;> rw [hwe, hdl]

theorem arrLoop_preserves (ck : Bool) (i : Nat) (l : VList)
    (h : VList.noDualId l = true) : (arrLoop ck i l).2 = l := by
  cases l with
  | lnil => rfl
  | lcons v rest =>
    rw [VList.noDualId] at h
    simp only [Bool.and_eq_true] at h
    obtain ⟨hv, hrest⟩ := h
    rw [arrLoop]
    have hwe := writeElement_preserves ck false (.kstr (decStr i)) v hv
    rcases hw : writeElement ck false (.kstr (decStr i)) v with ⟨r, v2⟩
    rw [hw] at hwe
    dsimp only at hwe
    cases r with
    | error e => dsimp only; rw [hwe]
    | ok b1 =>
      dsimp only
      have hal := arrLoop_preserves ck (i + 1) rest hrest
      rcases ha : arrLoop ck (i + 1) rest with ⟨r2, rest2⟩
      rw [ha] at hal
      dsimp only at hal
      cases r2 <;> dsimp only <;> rw [hwe, hal]

end

theorem emitId_preserves (ck : Bool) (k : RKey) (d : Doc)
    (h : Doc.noDualId d = true) : (emitId ck k d).2 = d := by
  cases d with
  | dnil => rfl
  | dcons k2 v rest =>
    rw [Doc.noDualId] at h
    simp only [Bool.and_eq_true] at h
    obtain ⟨hv, hrest⟩ := h
    rw [emitId]
    split
    · have hwe := writeElement_preserves ck true k v hv
      rcases hw : writeElement ck true k v with ⟨r, v2⟩
      rw [hw] at hwe
      dsimp only at hwe
      cases r <;> dsimp only <;> rw [hwe]
    · have he := emitId_preserves ck k rest hrest
      rcases h2 : emitId ck k rest with ⟨r, rest2⟩
      rw [h2] at he
      dsimp only at he
      dsimp only
      rw [he]

theorem serialize_snd (d : Doc) (ck mid : Bool) :
    (serialize d ck mid).2 = (topBody ck mid d).2 := by
  rcases htb : topBody ck mid d with ⟨r, d1⟩
  cases r with
  | error e => rw [serialize, htb]
  | ok body =>
    rw [serialize, htb]
    dsimp only
    cases docFrame body <;> rfl

/-- C5 fails on the code: serializing a document holding "_id" under both
its string and its symbol spelling with move_id false deletes the string
"_id" entry from the input document (the rb_hash_delete in write_doc). -/
theorem serialize_input_mutation_counterexample :
    (serialize dualIdDoc false false).2 ≠ dualIdDoc ∧
    (serialize dualIdDoc false false).2 = .dcons (.ksym idKey) (.vint 2) .dnil := by
  decide

/-- C5 amended: serialize leaves its input document unchanged (for any
flags, whether it succeeds or fails) whenever no hash in it, at the top
level or nested, holds "_id" under both the string and the symbol
spelling; when some traversed hash holds both, its string "_id" entry is
deleted instead. -/
theorem serialize_preserves_input (d : Doc) (ck mid : Bool)
    (h1 : Doc.noDualId d = true)
    (h2 : (d.hasKey (.kstr idKey) && d.hasKey (.ksym idKey)) = false) :
    (serialize d ck mid).2 = d := by
  rw [serialize_snd, topBody]
  split
  · split
    · have he := emitId_preserves ck (.kstr idKey) d h1
      rcases h3 : emitId ck (.kstr idKey) d with ⟨r, d1⟩
      rw [h3] at he
      dsimp only at he
      cases r with
      | error e => exact he
      | ok b1 =>
        dsimp only
        subst he
        have hdl := docLoop_preserves ck false d1 h1
        rcases h4 : docLoop ck false false d1 with ⟨r2, d2⟩
        rw [h4] at hdl
        dsimp only at hdl
        cases r2 <;> exact hdl
    · split
      · have he := emitId_preserves ck (.ksym idKey) d h1
        rcases h3 : emitId ck (.ksym idKey) d with ⟨r, d1⟩
        rw [h3] at he
        dsimp only at he
        cases r with
        | error e => exact he
        | ok b1 =>
          dsimp only
          subst he
          have hdl := docLoop_preserves ck false d1 h1
          rcases h4 : docLoop ck false false d1 with ⟨r2, d2⟩
          rw [h4] at hdl
          dsimp only at hdl
          cases r2 <;> exact hdl
      · exact docLoop_preserves ck false d h1
  · dsimp only
    rw [h2]
    exact docLoop_preserves ck true d h1

/-- C5 witness: a document without dual "_id" spellings is returned
unchanged. -/
theorem serialize_preserves_input_witness :
    (serialize (.dcons (.kstr [97]) (.vint 1) .dnil) true true).2 =
      .dcons (.kstr [97]) (.vint 1) .dnil :=
  serialize_preserves_input (.dcons (.kstr [97]) (.vint 1) .dnil) true true
    (by decide) (by decide)

/-- C9: get_value has no case for a tag outside -1, 1 through 18 and 127
(the signed-char readings of 0xFF, 0x01 through 0x12, 0x7F) and raises the
no-decoder error carrying the tag value; deserialize of a buffer whose
first element tag reads as such a value fails with that error. -/
theorem unknown_tag_error :
    (∀ (buf : Bytes) (fuel pos : Nat) (t : Int), validTagB t = false →
      getValue buf (fuel + 1) pos t = .error (.noDecoder t)) ∧
    (∀ buf : Bytes, 5 < buf.length → validTagB (sByte (byteAt buf 4)) = false →
      deserialize buf = .error (.noDecoder (sByte (byteAt buf 4)))) := by
  have h1 : ∀ (buf : Bytes) (fuel pos : Nat) (t : Int), validTagB t = false →
      getValue buf (fuel + 1) pos t = .error (.noDecoder t) := by
    intro buf fuel pos t hv
    rw [validTagB] at hv
    simp only [Bool.or_eq_false_iff, Bool.and_eq_false_iff, beq_eq_false_iff_ne,
      ne_eq, decide_eq_false_iff_not, not_le] at hv
    exact getValue.eq_22 buf pos t fuel
      (fun h => by omega) (fun h => by omega) (fun h => by omega) (fun h => by omega)
      (fun h => by omega) (fun h => by omega) (fun h => by omega) (fun h => by omega)
      (fun h => by omega) (fun h => by omega) (fun h => by omega) (fun h => by omega)
      (fun h => by omega) (fun h => by omega) (fun h => by omega) (fun h => by omega)
      (fun h => by omega) (fun h => by omega) (fun h => by omega) (fun h => by omega)
  refine ⟨h1, ?_⟩
  intro buf hlen hv
  obtain ⟨m, hm⟩ : ∃ m, buf.length = m + 1 := ⟨buf.length - 1, by omega⟩
  rw [deserialize, hm, elemsLoop, if_pos (by omega)]
  dsimp only
  rw [h1 buf m _ _ hv]

/-- C9 witness: tag byte 99 has no decoder and names itself in the error. -/
theorem unknown_tag_error_witness :
    getValue [] 1 0 99 = .error (.noDecoder 99) ∧
    deserialize [7, 0, 0, 0, 99, 0, 0] = .error (.noDecoder 99) :=
  ⟨unknown_tag_error.1 [] 0 0 99 (by decide),
    unknown_tag_error.2 [7, 0, 0, 0, 99, 0, 0] (by decide) (by decide)⟩

theorem writeElement_allowId (ck : Bool) (k : RKey) (v : Val)
    (h : cstrIsId k.bytes = false) :
    writeElement ck false k v = writeElement ck true k v := by
  rw [writeElement.eq_def, writeElement.eq_def]
  dsimp only
  rw [h]
  simp

theorem writeElement_skip (ck : Bool) (k : RKey) (v : Val)
    (h : cstrIsId k.bytes = true) :
    writeElement ck false k v = (.ok [], v) := by
  rw [writeElement.eq_def]
  dsimp only
  rw [h]
  rfl

theorem docLoop_plain (ck : Bool) (d : Doc) :
    (docLoop ck true false d).1 = writeSeq ck d.pairs := by
  cases d with
  | dnil => rfl
  | dcons k v rest =>
    rw [docLoop, Doc.pairs, writeSeq]
    simp only [Bool.false_and, Bool.false_eq_true, if_false]
    rcases hw : writeElement ck true k v with ⟨r, v2⟩
    cases r with
    | error e => rfl
    | ok b1 =>
      have ih := docLoop_plain ck rest
      rcases hd : docLoop ck true false rest with ⟨r2, rest2⟩
      rw [hd] at ih
      dsimp only at ih
      dsimp only
      rw [← ih]
      cases r2 <;> rfl

theorem docLoop_skip (ck : Bool) (d : Doc) :
    (docLoop ck false false d).1 =
      writeSeq ck (d.pairs.filter (fun kv => !cstrIsId kv.1.bytes)) := by
  cases d with
  | dnil => rfl
  | dcons k v rest =>
    rw [docLoop, Doc.pairs, List.filter_cons]
    simp only [Bool.false_and, Bool.false_eq_true, if_false]
    by_cases hk : cstrIsId k.bytes = true
    · rw [writeElement_skip ck k v hk, hk]
      simp only [Bool.not_true, Bool.false_eq_true, if_false]
      have ih := docLoop_skip ck rest
      rcases hd : docLoop ck false false rest with ⟨r2, rest2⟩
      rw [hd] at ih
      dsimp only at ih
      try dsimp only
      rw [← ih]
      cases r2 with
      | error e => rfl
      | ok b2 => dsimp only; rw [List.nil_append]
    · have hk2 : cstrIsId k.bytes = false := by simpa using hk
      rw [writeElement_allowId ck k v hk2, hk2]
      simp only [Bool.not_false, reduceIte]
      rw [writeSeq]
      rcases hw : writeElement ck true k v with ⟨r, v2⟩
      cases r with
      | error e => rfl
      | ok b1 =>
        have ih := docLoop_skip ck rest
        rcases hd : docLoop ck false false rest with ⟨r2, rest2⟩
        rw [hd] at ih
        dsimp only at ih
        dsimp only
        rw [← ih]
        cases r2 <;> rfl

theorem docLoop_drop (ck : Bool) (d : Doc) :
    (docLoop ck true true d).1 = writeSeq ck ((d.eraseKey (.kstr idKey)).pairs) := by
  cases d with
  | dnil => rfl
  | dcons k v rest =>
    rw [docLoop, Doc.eraseKey]
    simp only [Bool.true_and]
    by_cases hk : (k == RKey.kstr idKey) = true
    · rw [if_pos hk, if_pos hk]
      exact docLoop_plain ck rest
    · rw [if_neg hk, if_neg hk, Doc.pairs, writeSeq]
      rcases hw : writeElement ck true k v with ⟨r, v2⟩
      cases r with
      | error e => rfl
      | ok b1 =>
        have ih := docLoop_drop ck rest
        rcases hd : docLoop ck true true rest with ⟨r2, rest2⟩
        rw [hd] at ih
        dsimp only at ih
        dsimp only
        rw [← ih]
        cases r2 <;> rfl

theorem hasKey_lookup_some (d : Doc) (k : RKey) (h : d.hasKey k = true) :
    ∃ v, d.lookup k = some v := by
  cases d with
  | dnil => simp [Doc.hasKey] at h
  | dcons k2 v2 rest =>
    rw [Doc.hasKey] at h
    rw [Doc.lookup]
    by_cases hk : (k2 == k) = true
    · rw [if_pos hk]
      exact ⟨v2, rfl⟩
    · rw [if_neg hk]
      simp only [hk, Bool.false_or] at h
      exact hasKey_lookup_some rest k h

theorem lookup_hasKey (d : Doc) (k : RKey) (v : Val) (h : d.lookup k = some v) :
    d.hasKey k = true := by
  cases d with
  | dnil => simp [Doc.lookup] at h
  | dcons k2 v2 rest =>
    rw [Doc.lookup] at h
    rw [Doc.hasKey]
    by_cases hk : (k2 == k) = true
    · rw [hk, Bool.true_or]
    · rw [if_neg hk] at h
      rw [lookup_hasKey rest k v h, Bool.or_true]

theorem emitId_fst (ck : Bool) (k : RKey) (d : Doc) (v : Val)
    (hlk : d.lookup k = some v) :
    (emitId ck k d).1 = (writeElement ck true k v).1 := by
  cases d with
  | dnil => simp [Doc.lookup] at hlk
  | dcons k2 v2 rest =>
    rw [Doc.lookup] at hlk
    rw [emitId]
    by_cases hk : (k2 == k) = true
    · rw [if_pos hk] at hlk
      rw [if_pos hk]
      simp only [Option.some.injEq] at hlk
      subst hlk
      rcases hw : writeElement ck true k v2 with ⟨r, vv⟩
      cases r <;> rfl
    · rw [if_neg hk] at hlk
      rw [if_neg hk]
      have ih := emitId_fst ck k rest v hlk
      rcases he : emitId ck k rest with ⟨r, rest2⟩
      rw [he] at ih
      dsimp only at ih
      exact ih

theorem emitId_filter (ck : Bool) (k : RKey) (d : Doc) (h : cstrIsId k.bytes = true) :
    ((emitId ck k d).2).pairs.filter (fun kv => !cstrIsId kv.1.bytes) =
      d.pairs.filter (fun kv => !cstrIsId kv.1.bytes) := by
  cases d with
  | dnil => rfl
  | dcons k2 v rest =>
    rw [emitId]
    by_cases hk : (k2 == k) = true
    · rw [if_pos hk]
      have hkk : k2 = k := by simpa using hk
      have hk2 : cstrIsId k2.bytes = true := by rw [hkk]; exact h
      rcases hw : writeElement ck true k v with ⟨r, v2⟩
      cases r <;>
        (dsimp only; rw [Doc.pairs, Doc.pairs, List.filter_cons, List.filter_cons];
          simp [hk2])
    · rw [if_neg hk]
      have ih := emitId_filter ck k rest h
      rcases he : emitId ck k rest with ⟨r, rest2⟩
      rw [he] at ih
      dsimp only at ih
      dsimp only
      rw [Doc.pairs, Doc.pairs, List.filter_cons, List.filter_cons, ih]

/-- C6 fails on the code: with move_id false and a document holding "_id"
under both spellings, the emitted elements are not the input pairs in
order (the string "_id" entry is deleted, so only one element is written). -/
theorem moveid_order_counterexample :
    (topBody false false dualIdDoc).1 ≠ writeSeq false dualIdDoc.pairs ∧
    (topBody false false dualIdDoc).1 =
      .ok [0x10, 95, 105, 100, 0, 2, 0, 0, 0] := by decide

/-- C6 amended: the bytes of write_doc's traversal are exactly the in-order
emission of emitSeq: with move_id, the "_id" entry (string spelling
preferred) first and every "_id"-spelled key skipped afterwards; without
move_id, the input pairs in order, except that the duplicate string "_id"
entry is deleted first when both spellings are present. Nested documents
always take the move_id = false path. -/
theorem emission_order (ck mid : Bool) (d : Doc) :
    (topBody ck mid d).1 = writeSeq ck (emitSeq mid d) := by
  rw [topBody, emitSeq]
  cases mid with
  | true =>
    simp only [reduceIte]
    by_cases hstr : d.hasKey (.kstr idKey) = true
    · rw [hstr]
      simp only [reduceIte]
      obtain ⟨v, hlk⟩ := hasKey_lookup_some d (.kstr idKey) hstr
      rw [hlk]
      dsimp only
      have hfst := emitId_fst ck (.kstr idKey) d v hlk
      have hfil := emitId_filter ck (.kstr idKey) d (by decide)
      rcases he : emitId ck (.kstr idKey) d with ⟨r, d1⟩
      rw [he] at hfst hfil
      dsimp only at hfst hfil
      rw [List.singleton_append, writeSeq]
      rw [← hfst]
      cases r with
      | error e => rfl
      | ok b1 =>
        dsimp only
        have hskip := docLoop_skip ck d1
        rcases hd : docLoop ck false false d1 with ⟨r2, d2⟩
        rw [hd] at hskip
        dsimp only at hskip
        rw [hfil] at hskip
        rw [← hskip]
        cases r2 <;> rfl
    · have hstr2 : d.hasKey (.kstr idKey) = false := by simpa using hstr
      rw [hstr2]
      simp only [Bool.false_eq_true, if_false]
      have hlknone : d.lookup (.kstr idKey) = none := by
        cases hl : d.lookup (.kstr idKey) with
        | none => rfl
        | some v => exact absurd (lookup_hasKey d (.kstr idKey) v hl) (by rw [hstr2]; simp)
      rw [hlknone]
      dsimp only
      by_cases hsym : d.hasKey (.ksym idKey) = true
      · rw [hsym]
        simp only [reduceIte]
        obtain ⟨v, hlk⟩ := hasKey_lookup_some d (.ksym idKey) hsym
        rw [hlk]
        dsimp only
        have hfst := emitId_fst ck (.ksym idKey) d v hlk
        have hfil := emitId_filter ck (.ksym idKey) d (by decide)
        rcases he : emitId ck (.ksym idKey) d with ⟨r, d1⟩
        rw [he] at hfst hfil
        dsimp only at hfst hfil
        rw [List.singleton_append, writeSeq]
        rw [← hfst]
        cases r with
        | error e => rfl
        | ok b1 =>
          dsimp only
          have hskip := docLoop_skip ck d1
          rcases hd : docLoop ck false false d1 with ⟨r2, d2⟩
          rw [hd] at hskip
          dsimp only at hskip
          rw [hfil] at hskip
          rw [← hskip]
          cases r2 <;> rfl
      · have hsym2 : d.hasKey (.ksym idKey) = false := by simpa using hsym
        rw [hsym2]
        simp only [Bool.false_eq_true, if_false]
        have hlknone2 : d.lookup (.ksym idKey) = none := by
          cases hl : d.lookup (.ksym idKey) with
          | none => rfl
          | some v =>
            exact absurd (lookup_hasKey d (.ksym idKey) v hl) (by rw [hsym2]; simp)
        rw [hlknone2]
        dsimp only
        rw [List.nil_append]
        exact docLoop_skip ck d
  | false =>
    simp only [Bool.false_eq_true, if_false]
    by_cases hdual : (d.hasKey (.kstr idKey) && d.hasKey (.ksym idKey)) = true
    · rw [hdual]
      simp only [reduceIte]
      exact docLoop_drop ck d
    · have hdual2 : (d.hasKey (.kstr idKey) && d.hasKey (.ksym idKey)) = false := by
        simpa using hdual
      rw [hdual2]
      simp only [Bool.false_eq_true, if_false]
      exact docLoop_plain ck d

theorem mem_takeWhile_mem {p : Nat → Bool} {b : Nat} :
    ∀ l : Bytes, b ∈ l.takeWhile p → b ∈ l := by
  intro l
  induction l with
  | nil => simp [List.takeWhile]
  | cons c rest ih =>
    rw [List.takeWhile_cons]
    split
    · intro h
      rcases List.mem_cons.mp h with rfl | h2
      · exact List.mem_cons_self ..
      · exact List.mem_cons_of_mem _ (ih h2)
    · intro h
      simp at h

theorem decDigitsAux_mem : ∀ fuel m b, b ∈ decDigitsAux fuel m → 48 ≤ b ∧ b ≤ 57 := by
  intro fuel
  induction fuel with
  | zero => intro m b h; simp [decDigitsAux] at h
  | succ fuel ih =>
    intro m b h
    rw [decDigitsAux] at h
    by_cases hm : (m == 0) = true
    · rw [if_pos hm] at h; simp at h
    · rw [if_neg hm] at h
      rcases List.mem_cons.mp h with rfl | h2
      · have := Nat.mod_lt m (show 0 < 10 from by omega)
        omega
      · exact ih (m / 10) b h2

theorem decStr_mem (n b : Nat) (h : b ∈ decStr n) : 48 ≤ b ∧ b ≤ 57 := by
  rw [decStr] at h
  by_cases hn : (n == 0) = true
  · rw [if_pos hn] at h
    simp at h
    omega
  · rw [if_neg hn] at h
    exact decDigitsAux_mem n n b (List.mem_reverse.mp h)

theorem cstrIsId_decStr (i : Nat) : cstrIsId (decStr i) = false := by
  rw [cstrIsId]
  apply Bool.eq_false_iff.mpr
  intro hbeq
  have heq : List.takeWhile (fun b => b != 0) (decStr i) = idKey := by simpa using hbeq
  have h95 : (95 : Nat) ∈ decStr i := by
    apply mem_takeWhile_mem (p := fun b => b != 0)
    rw [heq, idKey]
    exact List.mem_cons_self ..
  have := decStr_mem i 95 h95
  omega

theorem keyCheck_ok (key : Bytes) {u : Unit} (h : keyCheck true key = .ok u) :
    validKeyB key = true := by
  rw [keyCheck] at h
  simp only [reduceIte] at h
  rw [validKeyB]
  by_cases h1 : (key.head? == some 36) = true
  · rw [if_pos h1] at h
    exact absurd h (by simp)
  · rw [if_neg h1] at h
    by_cases h2 : (key.contains 46) = true
    · rw [if_pos h2] at h
      exact absurd h (by simp)
    · have e1 : (key.head? == some 36) = false := by simpa using h1
      have e2 : (key.contains 46) = false := by simpa using h2
      rw [e1, e2]
      rfl

mutual

theorem writeElement_checked (aid : Bool) (k : RKey) (v : Val) (bs : Bytes)
    (h : (writeElement true aid k v).1 = .ok bs) :
    (!aid && cstrIsId k.bytes) = true ∨
      (validKeyB k.bytes = true ∧ Val.keysOk v = true) := by
  rw [writeElement.eq_def] at h
  dsimp only at h
  by_cases hskip : (!aid && cstrIsId k.bytes) = true
  · exact Or.inl hskip
  · right
    rw [if_neg hskip] at h
    rcases hkc : keyCheck true k.bytes with e | u
    · rw [hkc] at h
      dsimp only at h
      exact absurd h (by simp)
    · rw [hkc] at h
      dsimp only at h
      refine ⟨keyCheck_ok k.bytes hkc, ?_⟩
      cases v with
      | vdoc d =>
        rw [Val.keysOk]
        rcases hnt : nameType k.bytes 3 with e | nt
        · rw [hnt] at h
          dsimp only at h
          exact absurd h (by simp)
        · rw [hnt] at h
          dsimp only at h
          rcases hd : docLoop true true
              (d.hasKey (.kstr idKey) && d.hasKey (.ksym idKey)) d with ⟨r, d2⟩
          rw [hd] at h
          try dsimp only at h
          cases r with
          | error e => exact absurd h (by simp)
          | ok body =>
            exact docLoop_checked true _ d body (by rw [hd])
      | varray a =>
        rw [Val.keysOk]
        rcases hnt : nameType k.bytes 4 with e | nt
        · rw [hnt] at h
          dsimp only at h
          exact absurd h (by simp)
        · rw [hnt] at h
          dsimp only at h
          rcases ha : arrLoop true 0 a with ⟨r, a2⟩
          rw [ha] at h
          try dsimp only at h
          cases r with
          | error e => exact absurd h (by simp)
          | ok body => exact arrLoop_checked 0 a body (by rw [ha])
      | vint n => rfl
      | vbool b => rfl
      | vdouble bits => rfl
      | vnil => rfl
      | vstring s => rfl
      | vcode code scope => rfl
      | vsymbol s => rfl
      | vbinary st data => rfl
      | objid ob => rfl
      | vdbref ns oid => rfl
      | vmaxkey => rfl
      | vminkey => rfl
      | vtime ms => rfl
      | vregex pat fi fm fx extra => rfl

theorem docLoop_checked (aid ds : Bool) (d : Doc) (bs : Bytes)
    (h : (docLoop true aid ds d).1 = .ok bs) : Doc.keysOkL aid ds d = true := by
  cases d with
  | dnil => rfl
  | dcons k v rest =>
    rw [docLoop] at h
    rw [Doc.keysOkL]
    by_cases hdrop : (ds && (k == RKey.kstr idKey)) = true
    · rw [if_pos hdrop] at h
      rw [if_pos hdrop]
      exact docLoop_checked aid false rest bs h
    · rw [if_neg hdrop] at h
      rw [if_neg hdrop]
      rcases hw : writeElement true aid k v with ⟨r, v2⟩
      rw [hw] at h
      try dsimp only at h
      cases r with
      | error e => exact absurd h (by simp)
      | ok b1 =>
        rcases hd : docLoop true aid ds rest with ⟨r2, rest2⟩
        rw [hd] at h
        dsimp only at h
        cases r2 with
        | error e => exact absurd h (by simp)
        | ok b2 =>
          have hrest2 := docLoop_checked aid ds rest b2 (by rw [hd])
          rcases writeElement_checked aid k v b1 (by rw [hw]) with hskip | hok
          · rw [if_pos hskip]
            exact hrest2
          · by_cases hskip2 : (!aid && cstrIsId k.bytes) = true
            · rw [if_pos hskip2]
              exact hrest2
            · rw [if_neg hskip2, hok.1, hok.2, hrest2]
              rfl

theorem arrLoop_checked (i : Nat) (l : VList) (bs : Bytes)
    (h : (arrLoop true i l).1 = .ok bs) : VList.keysOk l = true := by
  cases l with
  | lnil => rfl
  | lcons v rest =>
    rw [arrLoop] at h
    rw [VList.keysOk]
    rcases hw : writeElement true false (.kstr (decStr i)) v with ⟨r, v2⟩
    rw [hw] at h
    try dsimp only at h
    cases r with
    | error e => exact absurd h (by simp)
    | ok b1 =>
      rcases ha : arrLoop true (i + 1) rest with ⟨r2, rest2⟩
      rw [ha] at h
      dsimp only at h
      cases r2 with
      | error e => exact absurd h (by simp)
      | ok b2 =>
        have hrest2 := arrLoop_checked (i + 1) rest b2 (by rw [ha])
        rcases writeElement_checked false (.kstr (decStr i)) v b1 (by rw [hw])
            with hskip | hok
        · rw [Bool.not_false, Bool.true_and] at hskip
          rw [RKey.bytes] at hskip
          exact absurd hskip (by rw [cstrIsId_decStr]; simp)
        · rw [hok.2, hrest2]
          rfl

end

theorem emitId_keysOkL (ck : Bool) (k : RKey) (d : Doc)
    (h : cstrIsId k.bytes = true) :
    Doc.keysOkL false false ((emitId ck k d).2) = Doc.keysOkL false false d := by
  cases d with
  | dnil => rfl
  | dcons k2 v rest =>
    rw [emitId]
    by_cases hk : (k2 == k) = true
    · rw [if_pos hk]
      have hkk : k2 = k := by simpa using hk
      have hk2 : cstrIsId k2.bytes = true := by rw [hkk]; exact h
      rcases hw : writeElement ck true k v with ⟨r, v2⟩
      cases r <;>
        (dsimp only; rw [Doc.keysOkL, Doc.keysOkL]
         simp only [Bool.false_and, Bool.false_eq_true, if_false, Bool.not_false,
           Bool.true_and, hk2, if_pos])
    · rw [if_neg hk]
      rcases he : emitId ck k rest with ⟨r, rest2⟩
      have ih := emitId_keysOkL ck k rest h
      rw [he] at ih
      dsimp only at ih
      dsimp only
      rw [Doc.keysOkL, Doc.keysOkL]
      simp only [Bool.false_and, Bool.false_eq_true, if_false, Bool.not_false,
        Bool.true_and]
      by_cases hc : cstrIsId k2.bytes = true
      · rw [hc]
        simp only [reduceIte]
        exact ih
      · have hc2 : cstrIsId k2.bytes = false := by simpa using hc
        rw [hc2]
        simp only [Bool.false_eq_true, if_false, ih]

/-- C3 fails on the code for scope documents (see the counterexample);
amended: when a serialize call with check_keys = true succeeds, every key
its traversal checked is valid — every key of the top-level document
(except those skipped by the move_id rule), of every nested hash (after
the duplicate "_id" drop) and of every array element; the scope document
of a Code value and everything below a DBRef value are serialized with
check_keys false and are exempt, and the "$ref" and "$id" keys emitted for
a DBRef do appear in the output. -/
theorem checked_keys_valid (d : Doc) (mid : Bool) (bs : Bytes) (d2 : Doc)
    (h : serialize d true mid = (.ok bs, d2)) : topKeysOk mid d = true := by
  obtain ⟨body, hbody, _⟩ := serialize_ok_split h
  rw [topBody] at hbody
  rw [topKeysOk]
  cases mid with
  | false =>
    simp only [Bool.false_eq_true, if_false] at hbody ⊢
    exact docLoop_checked true _ d body (by rw [hbody])
  | true =>
    simp only [reduceIte] at hbody ⊢
    by_cases hstr : d.hasKey (.kstr idKey) = true
    · rw [hstr] at hbody
      simp only [reduceIte] at hbody
      obtain ⟨v, hlk⟩ := hasKey_lookup_some d (.kstr idKey) hstr
      rw [hlk]
      dsimp only
      have hfst := emitId_fst true (.kstr idKey) d v hlk
      have hfil := emitId_keysOkL true (.kstr idKey) d (by decide)
      rcases he : emitId true (.kstr idKey) d with ⟨r, d1⟩
      rw [he] at hbody hfst hfil
      dsimp only at hbody hfst hfil
      cases r with
      | error e => exact absurd hbody (by simp)
      | ok b1 =>
        dsimp only at hbody
        rcases hd : docLoop true false false d1 with ⟨r2, d3⟩
        rw [hd] at hbody
        try dsimp only at hbody
        cases r2 with
        | error e => exact absurd hbody (by simp)
        | ok b2 =>
          have hloop := docLoop_checked false false d1 b2 (by rw [hd])
          rw [hfil] at hloop
          rcases writeElement_checked true (.kstr idKey) v b1 (by rw [← hfst])
              with hskip | hok
          · exact absurd hskip (by simp)
          · rw [hok.2, hloop]
            rfl
    · have hstr2 : d.hasKey (.kstr idKey) = false := by simpa using hstr
      rw [hstr2] at hbody
      simp only [Bool.false_eq_true, if_false] at hbody
      have hlknone : d.lookup (.kstr idKey) = none := by
        cases hl : d.lookup (.kstr idKey) with
        | none => rfl
        | some v => exact absurd (lookup_hasKey d (.kstr idKey) v hl) (by rw [hstr2]; simp)
      rw [hlknone]
      dsimp only
      by_cases hsym : d.hasKey (.ksym idKey) = true
      · rw [hsym] at hbody
        simp only [reduceIte] at hbody
        obtain ⟨v, hlk⟩ := hasKey_lookup_some d (.ksym idKey) hsym
        rw [hlk]
        dsimp only
        have hfst := emitId_fst true (.ksym idKey) d v hlk
        have hfil := emitId_keysOkL true (.ksym idKey) d (by decide)
        rcases he : emitId true (.ksym idKey) d with ⟨r, d1⟩
        rw [he] at hbody hfst hfil
        dsimp only at hbody hfst hfil
        cases r with
        | error e => exact absurd hbody (by simp)
        | ok b1 =>
          dsimp only at hbody
          rcases hd : docLoop true false false d1 with ⟨r2, d3⟩
          rw [hd] at hbody
          try dsimp only at hbody
          cases r2 with
          | error e => exact absurd hbody (by simp)
          | ok b2 =>
            have hloop := docLoop_checked false false d1 b2 (by rw [hd])
            rw [hfil] at hloop
            rcases writeElement_checked true (.ksym idKey) v b1 (by rw [← hfst])
                with hskip | hok
            · exact absurd hskip (by simp)
            · rw [hok.2, hloop]
              rfl
      · have hsym2 : d.hasKey (.ksym idKey) = false := by simpa using hsym
        rw [hsym2] at hbody
        simp only [Bool.false_eq_true, if_false] at hbody
        have hlknone2 : d.lookup (.ksym idKey) = none := by
          cases hl : d.lookup (.ksym idKey) with
          | none => rfl
          | some v =>
            exact absurd (lookup_hasKey d (.ksym idKey) v hl) (by rw [hsym2]; simp)
        rw [hlknone2]
        dsimp only
        rw [Bool.true_and]
        exact docLoop_checked false false d body (by rw [hbody])

/-- C3 fails on the code: a Code value whose scope document holds the key
of a dollar-prefixed name serializes successfully under check_keys = true
(write_doc for the scope is called with check_keys false) and the bad key
bytes 36, 98 appear in the output. -/
theorem scope_keycheck_counterexample :
    (serialize (.dcons (.kstr [107])
        (.vcode [99] (.dcons (.kstr [36, 98]) (.vint 1) .dnil)) .dnil) true false).1 =
      .ok [31, 0, 0, 0, 15, 107, 0, 23, 0, 0, 0, 2, 0, 0, 0, 99, 0, 13, 0, 0, 0,
        16, 36, 98, 0, 1, 0, 0, 0, 0, 0] := by decide

/-- C3 witness: the amended claim applied at a small document. -/
theorem checked_keys_valid_witness :
    topKeysOk false (.dcons (.kstr [97]) (.vint 1) .dnil) = true :=
  checked_keys_valid (.dcons (.kstr [97]) (.vint 1) .dnil) false
    [12, 0, 0, 0, 0x10, 97, 0, 1, 0, 0, 0, 0] (.dcons (.kstr [97]) (.vint 1) .dnil)
    (by decide)

/-! Byte-level reading lemmas for the round-trip development. -/

theorem drop_exact {a : Bytes} {n : Nat} (b : Bytes) (h : a.length = n) :
    (a ++ b).drop n = b := by
  subst h
  exact List.drop_left a b

theorem take_exact {a : Bytes} {n : Nat} (b : Bytes) (h : a.length = n) :
    (a ++ b).take n = a := by
  subst h
  exact List.take_left a b

theorem drop_at {buf : Bytes} {pos : Nat} {X : Bytes} (k : Nat)
    (h : buf.drop pos = X) : buf.drop (pos + k) = X.drop k := by
  rw [← List.drop_drop, h]

theorem byteAt_at {buf : Bytes} {pos : Nat} {b : Nat} {tail : Bytes}
    (h : buf.drop pos = b :: tail) : byteAt buf pos = b := by
  rw [byteAt, h]
  rfl

theorem window_at {buf : Bytes} {pos n : Nat} {a tail : Bytes}
    (h : buf.drop pos = a ++ tail) (hn : a.length = n) : window buf pos n = a := by
  rw [window, h]
  exact take_exact tail hn

theorem leVal_natLE : ∀ (w n : Nat), leVal (natLE w n) = n % 256 ^ w := by
  intro w
  induction w with
  | zero => intro n; simp [natLE, leVal, Nat.mod_one]
  | succ w ih =>
    intro n
    rw [natLE, leVal, ih (n / 256)]
    rw [pow_succ, Nat.mul_comm (256 ^ w) 256, Nat.mod_mul]
    omega

theorem readI32_at {buf : Bytes} {pos n : Nat} {tail : Bytes}
    (h : buf.drop pos = natLE 4 n ++ tail) (hn : n < 2147483648) :
    readI32 buf pos = (n : Int) := by
  rw [readI32, window_at h (natLE_length 4 n), leVal_natLE]
  rw [Nat.mod_eq_of_lt (by omega : n < 256 ^ 4)]
  rw [if_pos hn]

theorem readI32s_at {buf : Bytes} {pos : Nat} {m : Int} {tail : Bytes}
    (h : buf.drop pos = intLE 4 m ++ tail) (h1 : -2147483648 ≤ m)
    (h2 : m < 2147483648) : readI32 buf pos = m := by
  rw [readI32, window_at h (intLE_length 4 m), intLE, leVal_natLE]
  have hp : (2 : Int) ^ (8 * 4) = 4294967296 := by norm_num
  rw [hp]
  have ht : (m % 4294967296).toNat % 256 ^ 4 = (m % 4294967296).toNat := by
    apply Nat.mod_eq_of_lt
    have hq : (256 : Nat) ^ 4 = 4294967296 := by norm_num
    rw [hq]
    omega
  rw [ht]
  split
  · rename_i hlt
    omega
  · rename_i hge
    omega

theorem readI64s_at {buf : Bytes} {pos : Nat} {m : Int} {tail : Bytes}
    (h : buf.drop pos = intLE 8 m ++ tail) (h1 : -9223372036854775808 ≤ m)
    (h2 : m < 9223372036854775808) : readI64 buf pos = m := by
  rw [readI64, window_at h (intLE_length 8 m), intLE, leVal_natLE]
  have hp : (2 : Int) ^ (8 * 8) = 18446744073709551616 := by norm_num
  rw [hp]
  have ht : (m % 18446744073709551616).toNat % 256 ^ 8 =
      (m % 18446744073709551616).toNat := by
    apply Nat.mod_eq_of_lt
    have hq : (256 : Nat) ^ 8 = 18446744073709551616 := by norm_num
    rw [hq]
    omega
  rw [ht]
  split
  · rename_i hlt
    omega
  · rename_i hge
    omega

theorem takeWhile_all_append {s tail : Bytes} (h : s.contains 0 = false) :
    (s ++ 0 :: tail).takeWhile (fun b => b != 0) = s := by
  induction s with
  | nil => simp [List.takeWhile_cons]
  | cons a s2 ih =>
    simp only [List.contains_cons, Bool.or_eq_false_iff, beq_eq_false_iff_ne,
      ne_eq] at h
    rw [List.cons_append, List.takeWhile_cons]
    have ha : (a != 0) = true := by
      simp only [bne_iff_ne, ne_eq]
      exact fun he => h.1 he.symm
    rw [ha]
    simp only [if_true]
    rw [ih h.2]

theorem cstrAt_at {buf : Bytes} {pos : Nat} {s tail : Bytes}
    (h : buf.drop pos = s ++ 0 :: tail) (h0 : s.contains 0 = false) :
    cstrAt buf pos = s := by
  rw [cstrAt, h]
  exact takeWhile_all_append h0

theorem takeWhile_self {s : Bytes} (h : s.contains 0 = false) :
    s.takeWhile (fun b => b != 0) = s := by
  induction s with
  | nil => rfl
  | cons a s2 ih =>
    simp only [List.contains_cons, Bool.or_eq_false_iff, beq_eq_false_iff_ne,
      ne_eq] at h
    rw [List.takeWhile_cons]
    have ha : (a != 0) = true := by
      simp only [bne_iff_ne, ne_eq]
      exact fun he => h.1 he.symm
    rw [ha]
    simp only [if_true]
    rw [ih h.2]

theorem isRefAt_yes {buf : Bytes} {pos : Nat} {tail : Bytes}
    (h : buf.drop pos = [36, 114, 101, 102, 0] ++ tail) :
    isRefAt buf pos = true := by
  rw [isRefAt, window_at h (by rfl)]
  rfl

theorem isRefAt_headOk {buf : Bytes} {pos : Nat} {X : Bytes}
    (h : buf.drop pos = X) (hh : X.head? ≠ some 36) : isRefAt buf pos = false := by
  rw [isRefAt, window, h]
  apply Bool.eq_false_iff.mpr
  intro heq
  cases X with
  | nil => simp at heq
  | cons b t =>
    have hb : b = 36 := by
      have : b :: t.take 4 = [36, 114, 101, 102, 0] := by
        simpa [List.take_succ_cons] using heq
      exact (List.cons.injEq .. ).mp this |>.1
    exact hh (by rw [List.head?_cons, hb])

theorem isRefAt_key {buf : Bytes} {pos : Nat} {key X : Bytes}
    (h : buf.drop pos = key ++ 0 :: X) (h0 : key.contains 0 = false)
    (hne : (key == refKey) = false) : isRefAt buf pos = false := by
  rw [isRefAt, window, h]
  apply Bool.eq_false_iff.mpr
  intro heq
  have heq2 : (key ++ 0 :: X).take 5 = [36, 114, 101, 102, 0] := by simpa using heq
  rcases key with _ | ⟨a, _ | ⟨b, _ | ⟨c, _ | ⟨d, _ | ⟨e, t⟩⟩⟩⟩⟩
  · simp [List.take_succ_cons] at heq2
  · simp [List.take_succ_cons] at heq2
  · simp [List.take_succ_cons] at heq2
  · simp [List.take_succ_cons] at heq2
  · simp only [List.cons_append, List.nil_append, List.take_succ_cons,
      List.take_zero] at heq2
    have : a = 36 ∧ b = 114 ∧ c = 101 ∧ d = 102 := by
      have h1 := (List.cons.injEq .. ).mp heq2
      have h2 := (List.cons.injEq .. ).mp h1.2
      have h3 := (List.cons.injEq .. ).mp h2.2
      have h4 := (List.cons.injEq .. ).mp h3.2
      exact ⟨h1.1, h2.1, h3.1, h4.1⟩
    obtain ⟨rfl, rfl, rfl, rfl⟩ := this
    simp [refKey] at hne
  · simp only [List.cons_append, List.take_succ_cons, List.take_zero] at heq2
    have h1 := (List.cons.injEq .. ).mp heq2
    have h2 := (List.cons.injEq .. ).mp h1.2
    have h3 := (List.cons.injEq .. ).mp h2.2
    have h4 := (List.cons.injEq .. ).mp h3.2
    have h5 := (List.cons.injEq .. ).mp h4.2
    have he : e = 0 := h5.1
    subst he
    simp [List.contains_cons] at h0

theorem map_mod_id {l : Bytes}
    (h : l.all (fun b => decide (b < 256)) = true) :
    l.map (fun b => b % 256) = l := by
  induction l with
  | nil => rfl
  | cons a t ih =>
    simp only [List.all_cons, Bool.and_eq_true, decide_eq_true_eq] at h
    rw [List.map_cons, Nat.mod_eq_of_lt h.1, ih h.2]

theorem mem_sSort {b : Nat} : ∀ l : Bytes, b ∈ sSort l ↔ b ∈ l := by
  intro l
  induction l with
  | nil => simp [sSort]
  | cons a t ih =>
    rw [sSort, mem_sInsert]
    simp [ih]

theorem val_fuelN_pos (v : Val) : 1 ≤ Val.fuelN v := by
  cases v <;> simp [Val.fuelN] <;> omega

theorem doc_fuelN_pos (d : Doc) : 1 ≤ Doc.fuelN d := by
  cases d <;> simp [Doc.fuelN] <;> omega

theorem list_fuelN_pos (l : VList) : 1 ≤ VList.fuelN l := by
  cases l <;> simp [VList.fuelN] <;> omega

theorem append_dnil (d : Doc) : d.append .dnil = d := by
  cases d with
  | dnil => rfl
  | dcons k v rest => rw [Doc.append, append_dnil rest]

theorem append_assoc_doc (a b c : Doc) :
    (a.append b).append c = a.append (b.append c) := by
  cases a with
  | dnil => rfl
  | dcons k v rest => rw [Doc.append, Doc.append, Doc.append, append_assoc_doc rest]

theorem hasKeyBytes_docInsert (acc : Doc) (kb : Bytes) (v : Val) (sb : Bytes) :
    (docInsert acc kb v).hasKeyBytes sb =
      (acc.hasKeyBytes sb || kb == sb) := by
  cases acc with
  | dnil =>
    rw [docInsert, Doc.hasKeyBytes, Doc.hasKeyBytes, Doc.hasKeyBytes, RKey.bytes]
    simp
  | dcons k2 v2 rest =>
    rw [docInsert]
    by_cases hk : (k2 == RKey.kstr kb) = true
    · rw [if_pos hk, Doc.hasKeyBytes, Doc.hasKeyBytes]
      have hk2 : k2 = RKey.kstr kb := eq_of_beq hk
      subst hk2
      rw [RKey.bytes]
      by_cases hs : (kb == sb) = true
      · rw [hs]
        simp
      · rw [Bool.eq_false_iff.mpr hs]
        simp
    · rw [if_neg hk, Doc.hasKeyBytes, Doc.hasKeyBytes,
        hasKeyBytes_docInsert rest kb v sb, Bool.or_assoc]

theorem freshKeys_dnil (d : Doc) : Doc.freshKeys .dnil d = true := by
  cases d with
  | dnil => rfl
  | dcons k v rest =>
    rw [Doc.freshKeys, Doc.hasKeyBytes, freshKeys_dnil rest]
    rfl

theorem freshKeys_docInsert (acc rest : Doc) (kb : Bytes) (v : Val)
    (h1 : acc.freshKeys rest = true) (h2 : rest.hasKeyBytes kb = false) :
    (docInsert acc kb v).freshKeys rest = true := by
  cases rest with
  | dnil => rfl
  | dcons k2 v2 r2 =>
    rw [Doc.freshKeys] at h1
    rw [Doc.hasKeyBytes] at h2
    simp only [Bool.and_eq_true, Bool.not_eq_true ] at h1
    simp only [Bool.or_eq_false_iff] at h2
    have hA : acc.hasKeyBytes k2.bytes = false := by simpa using h1.1
    rw [Doc.freshKeys, hasKeyBytes_docInsert,
      freshKeys_docInsert acc r2 kb v h1.2 h2.2, hA]
    have hne : (kb == k2.bytes) = false := by
      rcases h : kb == k2.bytes with _ | _
      · rfl
      · exact absurd (eq_of_beq h ▸ h2.1) (by simp)
    rw [hne]
    rfl

theorem docInsert_fresh (acc : Doc) (kb : Bytes) (v : Val)
    (h : acc.hasKeyBytes kb = false) :
    docInsert acc kb v = acc.append (.dcons (.kstr kb) v .dnil) := by
  cases acc with
  | dnil => rfl
  | dcons k2 v2 rest =>
    rw [Doc.hasKeyBytes] at h
    simp only [Bool.or_eq_false_iff] at h
    have hk : (k2 == RKey.kstr kb) = false := by
      rcases hb : k2 == RKey.kstr kb with _ | _
      · rfl
      · have : k2.bytes = kb := by rw [eq_of_beq hb, RKey.bytes]
        exact absurd (this ▸ h.1) (by simp)
    rw [docInsert, if_neg (by simp [hk]), Doc.append,
      docInsert_fresh rest kb v h.2]

theorem wf_no_sym (d : Doc) (s : Bytes) (h : Doc.wf d = true) :
    d.hasKey (.ksym s) = false := by
  cases d with
  | dnil => rfl
  | dcons k v rest =>
    cases k with
    | kstr s2 =>
      rw [Doc.wf] at h
      simp only [Bool.and_eq_true] at h
      rw [Doc.hasKey, wf_no_sym rest s h.2]
      have hb : (RKey.kstr s2 == RKey.ksym s) = false := by
        rcases hx : RKey.kstr s2 == RKey.ksym s with _ | _
        · rfl
        · exact absurd (eq_of_beq hx) (by simp)
      rw [hb]
      rfl
    | ksym s2 =>
      rw [Doc.wf] at h
      simp at h

theorem contains_append_false {a b : Bytes} {x : Nat}
    (ha : a.contains x = false) (hb : b.contains x = false) :
    (a ++ b).contains x = false := by
  induction a with
  | nil => exact hb
  | cons c t ih =>
    rw [List.contains_cons] at ha
    simp only [Bool.or_eq_false_iff] at ha
    rw [List.cons_append, List.contains_cons]
    simp only [Bool.or_eq_false_iff]
    exact ⟨ha.1, ih ha.2⟩

theorem regexFlags_no0 (fi fm fx : Bool) :
    (regexFlags fi fm fx).contains 0 = false := by
  cases fi <;> cases fm <;> cases fx <;> decide

theorem regexFold_i (rest : Bytes) (fi fm fx : Bool) (ex : Bytes) :
    regexFold (105 :: rest) fi fm fx ex = regexFold rest true fm fx ex := rfl

theorem regexFold_m (rest : Bytes) (fi fm fx : Bool) (ex : Bytes) :
    regexFold (109 :: rest) fi fm fx ex = regexFold rest fi true fx ex := rfl

theorem regexFold_x (rest : Bytes) (fi fm fx : Bool) (ex : Bytes) :
    regexFold (120 :: rest) fi fm fx ex = regexFold rest fi fm true ex := rfl

theorem regexFold_extra (extra : Bytes) : ∀ ex : Bytes, ∀ fi fm fx : Bool,
    extra.contains 105 = false → extra.contains 109 = false →
    extra.contains 120 = false → ex.length + extra.length ≤ 9 →
    regexFold extra fi fm fx ex = (fi, fm, fx, ex ++ extra) := by
  induction extra with
  | nil =>
    intro ex fi fm fx _ _ _ _
    rw [regexFold, List.append_nil]
  | cons b t ih =>
    intro ex fi fm fx hi hm hx hlen
    rw [List.contains_cons] at hi hm hx
    simp only [Bool.or_eq_false_iff] at hi hm hx
    have hbi : (b == 105) = false := by
      rcases h : b == 105 with _ | _
      · rfl
      · exact absurd (beq_iff_eq.mpr (eq_of_beq h).symm) (by simp [hi.1])
    have hbm : (b == 109) = false := by
      rcases h : b == 109 with _ | _
      · rfl
      · exact absurd (beq_iff_eq.mpr (eq_of_beq h).symm) (by simp [hm.1])
    have hbx : (b == 120) = false := by
      rcases h : b == 120 with _ | _
      · rfl
      · exact absurd (beq_iff_eq.mpr (eq_of_beq h).symm) (by simp [hx.1])
    rw [regexFold, hbi, hbm, hbx]
    simp only [Bool.false_eq_true, if_false]
    rw [if_pos (by simp at hlen ⊢; omega)]
    rw [ih (ex ++ [b]) fi fm fx hi.2 hm.2 hx.2 (by simp at hlen ⊢; omega)]
    simp

theorem decStr_no0 (n : Nat) : (decStr n).contains 0 = false := by
  rcases h : (decStr n).contains 0 with _ | _
  · rfl
  · have hm : (0 : Nat) ∈ decStr n := by
      have h2 := List.contains_iff_exists_mem_beq.mp h
      rcases h2 with ⟨y, hy, hbe⟩
      rw [show y = 0 from (eq_of_beq hbe).symm] at hy
      exact hy
    exact absurd (decStr_mem n 0 hm).1 (by omega)

theorem nameType_ok {key : Bytes} {t : Nat} {nt : Bytes}
    (h : nameType key t = .ok nt) :
    nt = t :: (key ++ [0]) ∧ key.contains 0 = false := by
  rw [nameType] at h
  by_cases h0 : key.contains 0 = true
  · rw [if_pos h0] at h
    exact absurd h (by simp)
  · rw [if_neg h0] at h
    simp only [Except.ok.injEq] at h
    exact ⟨h.symm, by simpa using h0⟩

theorem drop_shift {buf : Bytes} {pos : Nat} {A X : Bytes} {k : Nat}
    (h : buf.drop pos = A ++ X) (hk : A.length = k) :
    buf.drop (pos + k) = X := by
  rw [drop_at k h, drop_exact X hk]

theorem regexFold_full (fi fm fx : Bool) (extra : Bytes)
    (hi : extra.contains 105 = false) (hm : extra.contains 109 = false)
    (hx : extra.contains 120 = false) (h9 : extra.length ≤ 9) :
    regexFold (regexFlags fi fm fx ++ extra) false false false [] =
      (fi, fm, fx, extra) := by
  cases fi <;> cases fm <;> cases fx <;>
    simp only [regexFlags, Bool.false_eq_true, if_false, if_true, reduceIte,
      List.nil_append, List.append_nil, List.cons_append,
      List.singleton_append] <;>
    (repeat first
      | rw [regexFold_i]
      | rw [regexFold_m]
      | rw [regexFold_x]) <;>
    rw [regexFold_extra extra [] _ _ _ hi hm hx (by simpa using h9)] <;>
    simp

mutual

theorem val_roundtrip (ck : Bool) (k : RKey) (v : Val) (ebs : Bytes)
    (hwf : Val.wf v = true)
    (henc : (writeElement ck true k v).1 = .ok ebs) :
    ∃ tag payload, ebs = tag :: (k.bytes ++ 0 :: payload) ∧ tag ≠ 36 ∧
      Val.fuelN v ≤ payload.length + 1 ∧
      ∀ pre rest fuel, Val.fuelN v ≤ fuel →
        pre.length + payload.length + rest.length ≤ 4194310 →
        rest.head? ≠ some 36 →
        getValue (pre ++ payload ++ rest) fuel pre.length (sByte tag) =
          .ok (v, pre.length + payload.length) := by
  rw [writeElement.eq_def] at henc
  dsimp only at henc
  rw [if_neg (by simp)] at henc
  rcases hkc : keyCheck ck k.bytes with e | u
  · rw [hkc] at henc
    exact absurd henc (by simp)
  · rw [hkc] at henc
    dsimp only at henc
    cases v with
    | vint n =>
      dsimp only at henc
      by_cases hbig : n > 9223372036854775807 ∨ n < -9223372036854775808
      · rw [if_pos hbig] at henc
        exact absurd henc (by simp)
      · rw [if_neg hbig] at henc
        by_cases hmed : n > 2147483647 ∨ n < -2147483648
        · rw [if_pos hmed] at henc
          rcases hnt : nameType k.bytes 18 with e | nt
          · rw [hnt, bindBytes] at henc
            exact absurd henc (by simp)
          · rw [hnt, bindBytes] at henc
            try dsimp only at henc
            simp only [Except.ok.injEq] at henc
            obtain ⟨hnts, h0⟩ := nameType_ok hnt
            refine ⟨18, intLE 8 n, ?_, by decide, ?_, ?_⟩
            · rw [← henc, hnts]
              simp [List.append_assoc]
            · simp [Val.fuelN]
            · intro pre rest fuel hf hbnd hr
              have hf1 : 1 ≤ fuel := le_trans (val_fuelN_pos _) hf
              obtain ⟨f, rfl⟩ : ∃ f, fuel = f + 1 := ⟨fuel - 1, by omega⟩
              rw [show sByte 18 = 18 from by decide]
              simp only [getValue]
              have hbase : (pre ++ intLE 8 n ++ rest).drop pre.length =
                  intLE 8 n ++ rest := by
                rw [List.append_assoc]
                exact drop_exact _ rfl
              rw [readI64s_at hbase (by omega) (by omega)]
              simp [intLE_length]
        · rw [if_neg hmed] at henc
          rcases hnt : nameType k.bytes 16 with e | nt
          · rw [hnt, bindBytes] at henc
            exact absurd henc (by simp)
          · rw [hnt, bindBytes] at henc
            try dsimp only at henc
            simp only [Except.ok.injEq] at henc
            obtain ⟨hnts, h0⟩ := nameType_ok hnt
            refine ⟨16, intLE 4 n, ?_, by decide, ?_, ?_⟩
            · rw [← henc, hnts]
              simp [List.append_assoc]
            · simp [Val.fuelN]
            · intro pre rest fuel hf hbnd hr
              have hf1 : 1 ≤ fuel := le_trans (val_fuelN_pos _) hf
              obtain ⟨f, rfl⟩ : ∃ f, fuel = f + 1 := ⟨fuel - 1, by omega⟩
              rw [show sByte 16 = 16 from by decide]
              simp only [getValue]
              have hbase : (pre ++ intLE 4 n ++ rest).drop pre.length =
                  intLE 4 n ++ rest := by
                rw [List.append_assoc]
                exact drop_exact _ rfl
              rw [readI32s_at hbase (by omega) (by omega)]
              simp [intLE_length]
    | vbool b =>
      try dsimp only at henc
      rcases hnt : nameType k.bytes 8 with e | nt
      · rw [hnt, bindBytes] at henc
        exact absurd henc (by simp)
      · rw [hnt, bindBytes] at henc
        try dsimp only at henc
        simp only [Except.ok.injEq] at henc
        obtain ⟨hnts, h0⟩ := nameType_ok hnt
        refine ⟨8, [if b then 1 else 0], ?_, by decide, ?_, ?_⟩
        · rw [← henc, hnts]
          simp [List.append_assoc]
        · simp [Val.fuelN]
        · intro pre rest fuel hf hbnd hr
          have hf1 : 1 ≤ fuel := le_trans (val_fuelN_pos _) hf
          obtain ⟨f, rfl⟩ : ∃ f, fuel = f + 1 := ⟨fuel - 1, by omega⟩
          rw [show sByte 8 = 8 from by decide]
          simp only [getValue]
          have hbase : (pre ++ [if b then 1 else 0] ++ rest).drop pre.length =
              (if b then 1 else 0) :: rest := by
            rw [List.append_assoc]
            exact drop_exact _ rfl
          rw [byteAt_at hbase]
          cases b <;> simp
    | vdouble bits =>
      try dsimp only at henc
      have hbits : bits < 18446744073709551616 := by
        simpa [Val.wf] using hwf
      rcases hnt : nameType k.bytes 1 with e | nt
      · rw [hnt, bindBytes] at henc
        exact absurd henc (by simp)
      · rw [hnt, bindBytes] at henc
        try dsimp only at henc
        simp only [Except.ok.injEq] at henc
        obtain ⟨hnts, h0⟩ := nameType_ok hnt
        refine ⟨1, natLE 8 bits, ?_, by decide, ?_, ?_⟩
        · rw [← henc, hnts]
          simp [List.append_assoc]
        · simp [Val.fuelN]
        · intro pre rest fuel hf hbnd hr
          have hf1 : 1 ≤ fuel := le_trans (val_fuelN_pos _) hf
          obtain ⟨f, rfl⟩ : ∃ f, fuel = f + 1 := ⟨fuel - 1, by omega⟩
          rw [show sByte 1 = 1 from by decide]
          simp only [getValue]
          have hbase : (pre ++ natLE 8 bits ++ rest).drop pre.length =
              natLE 8 bits ++ rest := by
            rw [List.append_assoc]
            exact drop_exact _ rfl
          rw [window_at hbase (natLE_length 8 bits), leVal_natLE,
            Nat.mod_eq_of_lt (by
              have h8 : (256 : Nat) ^ 8 = 18446744073709551616 := by norm_num
              omega)]
          simp [natLE_length]
    | vnil =>
      try dsimp only at henc
      rcases hnt : nameType k.bytes 10 with e | nt
      · rw [hnt, bindBytes] at henc
        exact absurd henc (by simp)
      · rw [hnt, bindBytes] at henc
        try dsimp only at henc
        simp only [Except.ok.injEq] at henc
        obtain ⟨hnts, h0⟩ := nameType_ok hnt
        refine ⟨10, [], ?_, by decide, ?_, ?_⟩
        · rw [← henc, hnts]
          simp
        · simp [Val.fuelN]
        · intro pre rest fuel hf hbnd hr
          have hf1 : 1 ≤ fuel := le_trans (val_fuelN_pos _) hf
          obtain ⟨f, rfl⟩ : ∃ f, fuel = f + 1 := ⟨fuel - 1, by omega⟩
          rw [show sByte 10 = 10 from by decide]
          simp only [getValue]
          simp
    | vmaxkey =>
      try dsimp only at henc
      rcases hnt : nameType k.bytes 127 with e | nt
      · rw [hnt, bindBytes] at henc
        exact absurd henc (by simp)
      · rw [hnt, bindBytes] at henc
        try dsimp only at henc
        simp only [Except.ok.injEq] at henc
        obtain ⟨hnts, h0⟩ := nameType_ok hnt
        refine ⟨127, [], ?_, by decide, ?_, ?_⟩
        · rw [← henc, hnts]
          simp
        · simp [Val.fuelN]
        · intro pre rest fuel hf hbnd hr
          have hf1 : 1 ≤ fuel := le_trans (val_fuelN_pos _) hf
          obtain ⟨f, rfl⟩ : ∃ f, fuel = f + 1 := ⟨fuel - 1, by omega⟩
          rw [show sByte 127 = 127 from by decide]
          simp only [getValue]
          simp
    | vminkey =>
      try dsimp only at henc
      rcases hnt : nameType k.bytes 255 with e | nt
      · rw [hnt, bindBytes] at henc
        exact absurd henc (by simp)
      · rw [hnt, bindBytes] at henc
        try dsimp only at henc
        simp only [Except.ok.injEq] at henc
        obtain ⟨hnts, h0⟩ := nameType_ok hnt
        refine ⟨255, [], ?_, by decide, ?_, ?_⟩
        · rw [← henc, hnts]
          simp
        · simp [Val.fuelN]
        · intro pre rest fuel hf hbnd hr
          have hf1 : 1 ≤ fuel := le_trans (val_fuelN_pos _) hf
          obtain ⟨f, rfl⟩ : ∃ f, fuel = f + 1 := ⟨fuel - 1, by omega⟩
          rw [show sByte 255 = -1 from by decide]
          simp only [getValue]
          simp
    | vtime ms =>
      try dsimp only at henc
      have hms : -9223372036854775808 ≤ ms ∧ ms ≤ 9223372036854775807 := by
        simpa [Val.wf] using hwf
      rcases hnt : nameType k.bytes 9 with e | nt
      · rw [hnt, bindBytes] at henc
        exact absurd henc (by simp)
      · rw [hnt, bindBytes] at henc
        try dsimp only at henc
        simp only [Except.ok.injEq] at henc
        obtain ⟨hnts, h0⟩ := nameType_ok hnt
        refine ⟨9, intLE 8 ms, ?_, by decide, ?_, ?_⟩
        · rw [← henc, hnts]
          simp [List.append_assoc]
        · simp [Val.fuelN]
        · intro pre rest fuel hf hbnd hr
          have hf1 : 1 ≤ fuel := le_trans (val_fuelN_pos _) hf
          obtain ⟨f, rfl⟩ : ∃ f, fuel = f + 1 := ⟨fuel - 1, by omega⟩
          rw [show sByte 9 = 9 from by decide]
          simp only [getValue]
          have hbase : (pre ++ intLE 8 ms ++ rest).drop pre.length =
              intLE 8 ms ++ rest := by
            rw [List.append_assoc]
            exact drop_exact _ rfl
          rw [readI64s_at hbase (by omega) (by omega)]
          simp [intLE_length]
    | vstring s =>
      try dsimp only at henc
      rcases hnt : nameType k.bytes 2 with e | nt
      · rw [hnt] at henc
        exact absurd henc (by simp)
      · rw [hnt] at henc
        try dsimp only at henc
        simp only [Except.ok.injEq] at henc
        obtain ⟨hnts, h0⟩ := nameType_ok hnt
        refine ⟨2, natLE 4 (s.length + 1) ++ s ++ [0], ?_, by decide, ?_, ?_⟩
        · rw [← henc, hnts]
          simp [List.append_assoc]
        · simp [Val.fuelN]
        · intro pre rest fuel hf hbnd hr
          simp only [List.length_append, natLE_length, List.length_cons,
            List.length_nil] at hbnd
          have hf1 : 1 ≤ fuel := le_trans (val_fuelN_pos _) hf
          obtain ⟨f, rfl⟩ : ∃ f, fuel = f + 1 := ⟨fuel - 1, by omega⟩
          rw [show sByte 2 = 2 from by decide]
          simp only [getValue]
          have hbase : (pre ++ (natLE 4 (s.length + 1) ++ s ++ [0]) ++ rest).drop
              pre.length = natLE 4 (s.length + 1) ++ (s ++ (0 :: rest)) := by
            rw [List.append_assoc, drop_exact _ rfl]
            simp [List.append_assoc]
          rw [readI32_at hbase (by omega)]
          rw [show (((s.length + 1 : Nat) : Int) - 1).toNat = s.length from by omega]
          have h4 : (pre ++ (natLE 4 (s.length + 1) ++ s ++ [0]) ++ rest).drop
              (pre.length + 4) = s ++ (0 :: rest) :=
            drop_shift hbase (natLE_length 4 (s.length + 1))
          rw [window_at h4 rfl]
          simp only [Except.ok.injEq, Prod.mk.injEq, List.length_append,
            natLE_length, List.length_cons, List.length_nil, true_and]
          omega
    | vsymbol s =>
      try dsimp only at henc
      have hs0 : s.contains 0 = false := by
        simpa [Val.wf] using hwf
      rw [takeWhile_self hs0] at henc
      rcases hnt : nameType k.bytes 14 with e | nt
      · rw [hnt] at henc
        exact absurd henc (by simp)
      · rw [hnt] at henc
        try dsimp only at henc
        simp only [Except.ok.injEq] at henc
        obtain ⟨hnts, h0⟩ := nameType_ok hnt
        refine ⟨14, natLE 4 (s.length + 1) ++ s ++ [0], ?_, by decide, ?_, ?_⟩
        · rw [← henc, hnts]
          simp [List.append_assoc]
        · simp [Val.fuelN]
        · intro pre rest fuel hf hbnd hr
          simp only [List.length_append, natLE_length, List.length_cons,
            List.length_nil] at hbnd
          have hf1 : 1 ≤ fuel := le_trans (val_fuelN_pos _) hf
          obtain ⟨f, rfl⟩ : ∃ f, fuel = f + 1 := ⟨fuel - 1, by omega⟩
          rw [show sByte 14 = 14 from by decide]
          simp only [getValue]
          have hbase : (pre ++ (natLE 4 (s.length + 1) ++ s ++ [0]) ++ rest).drop
              pre.length = natLE 4 (s.length + 1) ++ (s ++ (0 :: rest)) := by
            rw [List.append_assoc, drop_exact _ rfl]
            simp [List.append_assoc]
          rw [readI32_at hbase (by omega)]
          rw [show (((s.length + 1 : Nat) : Int)).toNat = s.length + 1 from by omega]
          have h4 : (pre ++ (natLE 4 (s.length + 1) ++ s ++ [0]) ++ rest).drop
              (pre.length + 4) = s ++ (0 :: rest) :=
            drop_shift hbase (natLE_length 4 (s.length + 1))
          rw [cstrAt_at h4 hs0]
          simp only [Except.ok.injEq, Prod.mk.injEq, List.length_append,
            natLE_length, List.length_cons, List.length_nil, true_and]
          omega
    | vbinary st data =>
      try dsimp only at henc
      have hst : st < 256 := by
        simpa [Val.wf] using hwf
      rcases hnt : nameType k.bytes 5 with e | nt
      · rw [hnt] at henc
        exact absurd henc (by simp)
      · rw [hnt] at henc
        try dsimp only at henc
        rw [Nat.mod_eq_of_lt hst] at henc
        by_cases h2 : st = 2
        · subst h2
          rw [if_pos (by decide : ((2 : Nat) == 2) = true)] at henc
          try dsimp only at henc
          simp only [Except.ok.injEq] at henc
          obtain ⟨hnts, h0⟩ := nameType_ok hnt
          refine ⟨5, natLE 4 (data.length + 4) ++ [2] ++ natLE 4 data.length ++
            data, ?_, by decide, ?_, ?_⟩
          · rw [← henc, hnts]
            simp [List.append_assoc]
          · simp [Val.fuelN]
          · intro pre rest fuel hf hbnd hr
            simp only [List.length_append, natLE_length, List.length_cons,
              List.length_nil] at hbnd
            have hf1 : 1 ≤ fuel := le_trans (val_fuelN_pos _) hf
            obtain ⟨f, rfl⟩ : ∃ f, fuel = f + 1 := ⟨fuel - 1, by omega⟩
            rw [show sByte 5 = 5 from by decide]
            simp only [getValue]
            have hbase : (pre ++ (natLE 4 (data.length + 4) ++ [2] ++
                natLE 4 data.length ++ data) ++ rest).drop pre.length =
                natLE 4 (data.length + 4) ++
                  (2 :: (natLE 4 data.length ++ (data ++ rest))) := by
              rw [List.append_assoc, drop_exact _ rfl]
              simp [List.append_assoc]
            rw [readI32_at hbase (by omega)]
            rw [show (((data.length + 4 : Nat) : Int)).toNat = data.length + 4
              from by omega]
            have h4 : (pre ++ (natLE 4 (data.length + 4) ++ [2] ++
                natLE 4 data.length ++ data) ++ rest).drop (pre.length + 4) =
                2 :: (natLE 4 data.length ++ (data ++ rest)) :=
              drop_shift hbase (natLE_length 4 (data.length + 4))
            rw [byteAt_at h4]
            rw [show (2 : Nat) % 256 = 2 from rfl]
            rw [if_pos (by decide : ((2 : Nat) == 2) = true)]
            rw [show data.length + 4 - 4 = data.length from by omega]
            have h9 : (pre ++ (natLE 4 (data.length + 4) ++ [2] ++
                natLE 4 data.length ++ data) ++ rest).drop (pre.length + 9) =
                data ++ rest := by
              rw [show (pre ++ (natLE 4 (data.length + 4) ++ [2] ++
                  natLE 4 data.length ++ data) ++ rest) =
                (pre ++ natLE 4 (data.length + 4) ++ [2] ++ natLE 4 data.length)
                  ++ (data ++ rest) from by simp [List.append_assoc]]
              exact drop_exact _ (by
                simp only [List.length_append, natLE_length, List.length_cons,
                  List.length_nil] <;> omega)
            rw [window_at h9 rfl]
            simp only [Except.ok.injEq, Prod.mk.injEq, List.length_append,
              natLE_length, List.length_cons, List.length_nil, true_and]
            omega
        · rw [if_neg (by simp [h2])] at henc
          try dsimp only at henc
          simp only [Except.ok.injEq] at henc
          obtain ⟨hnts, h0⟩ := nameType_ok hnt
          refine ⟨5, natLE 4 data.length ++ [st] ++ data, ?_, by decide, ?_, ?_⟩
          · rw [← henc, hnts]
            simp [List.append_assoc]
          · simp [Val.fuelN]
          · intro pre rest fuel hf hbnd hr
            simp only [List.length_append, natLE_length, List.length_cons,
              List.length_nil] at hbnd
            have hf1 : 1 ≤ fuel := le_trans (val_fuelN_pos _) hf
            obtain ⟨f, rfl⟩ : ∃ f, fuel = f + 1 := ⟨fuel - 1, by omega⟩
            rw [show sByte 5 = 5 from by decide]
            simp only [getValue]
            have hbase : (pre ++ (natLE 4 data.length ++ [st] ++ data) ++
                rest).drop pre.length =
                natLE 4 data.length ++ (st :: (data ++ rest)) := by
              rw [List.append_assoc, drop_exact _ rfl]
              simp [List.append_assoc]
            rw [readI32_at hbase (by omega)]
            rw [show (((data.length : Nat) : Int)).toNat = data.length from by omega]
            have h4 : (pre ++ (natLE 4 data.length ++ [st] ++ data) ++ rest).drop
                (pre.length + 4) = st :: (data ++ rest) :=
              drop_shift hbase (natLE_length 4 data.length)
            rw [byteAt_at h4]
            rw [Nat.mod_eq_of_lt hst]
            rw [if_neg (by simp [h2])]
            have h5 : (pre ++ (natLE 4 data.length ++ [st] ++ data) ++ rest).drop
                (pre.length + 5) = data ++ rest := by
              rw [show (pre ++ (natLE 4 data.length ++ [st] ++ data) ++ rest) =
                (pre ++ natLE 4 data.length ++ [st]) ++ (data ++ rest) from by
                  simp [List.append_assoc]]
              exact drop_exact _ (by
                simp only [List.length_append, natLE_length, List.length_cons,
                  List.length_nil] <;> omega)
            rw [window_at h5 rfl]
            simp only [Except.ok.injEq, Prod.mk.injEq, List.length_append,
              natLE_length, List.length_cons, List.length_nil, true_and]
            omega
    | objid ob =>
      try dsimp only at henc
      have hwf2 : (ob.length == 12) = true ∧
          ob.all (fun b => decide (b < 256)) = true := by
        simpa [Val.wf] using hwf
      have hlen : ob.length = 12 := eq_of_beq hwf2.1
      rcases hnt : nameType k.bytes 7 with e | nt
      · rw [hnt] at henc
        exact absurd henc (by simp)
      · rw [hnt] at henc
        try dsimp only at henc
        rw [List.take_of_length_le (le_of_eq hlen), map_mod_id hwf2.2] at henc
        simp only [Except.ok.injEq] at henc
        obtain ⟨hnts, h0⟩ := nameType_ok hnt
        refine ⟨7, ob, ?_, by decide, ?_, ?_⟩
        · rw [← henc, hnts]
          simp [List.append_assoc]
        · simp [Val.fuelN]
        · intro pre rest fuel hf hbnd hr
          have hf1 : 1 ≤ fuel := le_trans (val_fuelN_pos _) hf
          obtain ⟨f, rfl⟩ : ∃ f, fuel = f + 1 := ⟨fuel - 1, by omega⟩
          rw [show sByte 7 = 7 from by decide]
          simp only [getValue]
          have hbase : (pre ++ ob ++ rest).drop pre.length = ob ++ rest := by
            rw [List.append_assoc]
            exact drop_exact _ rfl
          rw [window_at hbase hlen]
          simp only [Except.ok.injEq, Prod.mk.injEq, true_and]
          omega
    | vregex pat fi fm fx extra =>
      try dsimp only at henc
      have hwf2 : ((((extra.contains 0 = false ∧ extra.contains 105 = false) ∧
          extra.contains 109 = false) ∧ extra.contains 120 = false) ∧
          extra.length ≤ 9) ∧ (sSort extra == extra) = true := by
        simpa [Val.wf, Bool.and_eq_true] using hwf
      obtain ⟨⟨⟨⟨⟨hex0, hexi⟩, hexm⟩, hexx⟩, hl9⟩, hse⟩ := hwf2
      rcases hnt : nameType k.bytes 11 with e | nt
      · rw [hnt] at henc
        exact absurd henc (by simp)
      · rw [hnt] at henc
        try dsimp only at henc
        by_cases hp0 : pat.contains 0 = true
        · rw [if_pos hp0] at henc
          exact absurd henc (by simp)
        · rw [if_neg hp0] at henc
          try dsimp only at henc
          simp only [Except.ok.injEq] at henc
          rw [show sSort extra = extra from eq_of_beq hse] at henc
          have hp0f : pat.contains 0 = false := by simpa using hp0
          obtain ⟨hnts, h0⟩ := nameType_ok hnt
          refine ⟨11, pat ++ [0] ++ regexFlags fi fm fx ++ extra ++ [0], ?_,
            by decide, ?_, ?_⟩
          · rw [← henc, hnts]
            simp [List.append_assoc]
          · simp [Val.fuelN]
          · intro pre rest fuel hf hbnd hr
            have hf1 : 1 ≤ fuel := le_trans (val_fuelN_pos _) hf
            obtain ⟨f, rfl⟩ : ∃ f, fuel = f + 1 := ⟨fuel - 1, by omega⟩
            rw [show sByte 11 = 11 from by decide]
            simp only [getValue]
            have hbase : (pre ++ (pat ++ [0] ++ regexFlags fi fm fx ++ extra ++
                [0]) ++ rest).drop pre.length =
                pat ++ (0 :: (regexFlags fi fm fx ++ (extra ++ (0 :: rest)))) := by
              rw [List.append_assoc, drop_exact _ rfl]
              simp [List.append_assoc]
            rw [cstrAt_at hbase hp0f]
            have h2 : (pre ++ (pat ++ [0] ++ regexFlags fi fm fx ++ extra ++
                [0]) ++ rest).drop (pre.length + pat.length + 1) =
                (regexFlags fi fm fx ++ extra) ++ (0 :: rest) := by
              rw [show (pre ++ (pat ++ [0] ++ regexFlags fi fm fx ++ extra ++
                  [0]) ++ rest) =
                (pre ++ pat ++ [0]) ++ ((regexFlags fi fm fx ++ extra) ++
                  (0 :: rest)) from by simp [List.append_assoc]]
              exact drop_exact _ (by
                simp only [List.length_append, List.length_cons,
                  List.length_nil] <;> omega)
            rw [cstrAt_at h2 (contains_append_false (regexFlags_no0 fi fm fx) hex0)]
            rw [regexFold_full fi fm fx extra hexi hexm hexx hl9]
            simp only [Except.ok.injEq, Prod.mk.injEq, List.length_append,
              List.length_cons, List.length_nil, true_and]
            omega
    | vdoc d =>
      try dsimp only at henc
      simp only [Val.wf, Bool.and_eq_true] at hwf
      obtain ⟨hfr, hwd⟩ := hwf
      rcases hnt : nameType k.bytes 3 with e | nt
      · rw [hnt] at henc
        exact absurd henc (by simp)
      · rw [hnt] at henc
        try dsimp only at henc
        rw [wf_no_sym d idKey hwd] at henc
        simp only [Bool.and_false] at henc
        rcases hdl : docLoop ck true false d with ⟨r, d2⟩
        rw [hdl] at henc
        try dsimp only at henc
        cases r with
        | error e => exact absurd henc (by simp)
        | ok body =>
          try dsimp only at henc
          rcases hdf : docFrame body with e | bs2
          · rw [hdf] at henc
            exact absurd henc (by simp)
          · rw [hdf] at henc
            try dsimp only at henc
            simp only [Except.ok.injEq] at henc
            obtain ⟨hbs2, hlim⟩ := docFrame_ok hdf
            rw [hbs2, subFrame] at henc
            obtain ⟨hnts, h0⟩ := nameType_ok hnt
            obtain ⟨hshape, hfl, hloop⟩ := doc_roundtrip ck d body hwd (by rw [hdl])
            refine ⟨3, natLE 4 (4 + body.length + 1) ++ body ++ [0], ?_,
              by decide, ?_, ?_⟩
            · rw [← henc, hnts]
              simp [List.append_assoc]
            · rw [Val.fuelN]
              simp only [List.length_append, natLE_length, List.length_cons,
                List.length_nil]
              omega
            · intro pre rest fuel hf hbnd hr
              rw [Val.fuelN] at hf
              simp only [List.length_append, natLE_length, List.length_cons,
                List.length_nil] at hbnd
              obtain ⟨f, rfl⟩ : ∃ f, fuel = f + 1 := ⟨fuel - 1, by omega⟩
              rw [show sByte 3 = 3 from by decide]
              simp only [getValue]
              have hbase : (pre ++ (natLE 4 (4 + body.length + 1) ++ body ++ [0])
                  ++ rest).drop pre.length =
                  natLE 4 (4 + body.length + 1) ++ (body ++ (0 :: rest)) := by
                rw [List.append_assoc, drop_exact _ rfl]
                simp [List.append_assoc]
              rw [readI32_at hbase (by omega)]
              rw [show (((4 + body.length + 1 : Nat) : Int)).toNat =
                4 + body.length + 1 from by omega]
              have href : isRefAt (pre ++ (natLE 4 (4 + body.length + 1) ++ body
                  ++ [0]) ++ rest) (pre.length + 5) = false := by
                rcases hshape with ⟨hdn, hbn⟩ |
                  ⟨k1, v1, r1, t1, tl1, hdd, hbd, ht1, hk1⟩
                · have h5 : (pre ++ (natLE 4 (4 + body.length + 1) ++ body ++
                      [0]) ++ rest).drop (pre.length + 5) = rest :=
                    drop_exact _ (by
                      simp only [List.length_append, natLE_length,
                        List.length_cons, List.length_nil, hbn] <;> omega)
                  exact isRefAt_headOk h5 hr
                · have hbe : (pre ++ (natLE 4 (4 + body.length + 1) ++ body ++
                      [0]) ++ rest) =
                      (pre ++ natLE 4 (4 + body.length + 1) ++ [t1]) ++
                        (k1.bytes ++ 0 :: (tl1 ++ (0 :: rest))) := by
                    rw [hbd]
                    simp [List.append_assoc]
                  have h5 : (pre ++ (natLE 4 (4 + body.length + 1) ++ body ++
                      [0]) ++ rest).drop (pre.length + 5) =
                      k1.bytes ++ 0 :: (tl1 ++ (0 :: rest)) := by
                    rw [hbe]
                    exact drop_exact _ (by
                      simp only [List.length_append, natLE_length,
                        List.length_cons, List.length_nil] <;> omega)
                  have hne : (k1.bytes == refKey) = false := by
                    rw [hdd, Doc.firstKeyNotRef] at hfr
                    simpa using hfr
                  exact isRefAt_key h5 hk1 hne
              rw [href]
              simp only [Bool.false_eq_true, if_false]
              rw [show 4 + body.length + 1 - 5 = body.length from by omega]
              rw [show pre.length + 4 =
                (pre ++ natLE 4 (4 + body.length + 1)).length from by
                  simp only [List.length_append, natLE_length] <;> omega]
              rw [show ((pre ++ (natLE 4 (4 + body.length + 1) ++ body ++ [0]) ++
                  rest : Bytes)) =
                (pre ++ natLE 4 (4 + body.length + 1)) ++ body ++ (0 :: rest)
                from by simp [List.append_assoc]]
              rw [hloop (pre ++ natLE 4 (4 + body.length + 1)) (0 :: rest) f
                .dnil (by omega)
                (by simp only [List.length_append, natLE_length,
                      List.length_cons, List.length_nil]
                    omega)
                (by simp) (freshKeys_dnil d)]
              try dsimp only
              simp only [Doc.append, Except.ok.injEq, Prod.mk.injEq,
                List.length_append, natLE_length, List.length_cons,
                List.length_nil, eq_self_iff_true, true_and] <;> omega
    | varray a =>
      try dsimp only at henc
      have hwa : VList.wf a = true := by simpa [Val.wf] using hwf
      rcases hnt : nameType k.bytes 4 with e | nt
      · rw [hnt] at henc
        exact absurd henc (by simp)
      · rw [hnt] at henc
        try dsimp only at henc
        rcases ha : arrLoop ck 0 a with ⟨r, a2⟩
        rw [ha] at henc
        try dsimp only at henc
        cases r with
        | error e => exact absurd henc (by simp)
        | ok body =>
          try dsimp only at henc
          simp only [Except.ok.injEq] at henc
          rw [subFrame] at henc
          obtain ⟨hnts, h0⟩ := nameType_ok hnt
          obtain ⟨hshape, hfl, hloop⟩ := arr_roundtrip ck 0 a body hwa (by rw [ha])
          refine ⟨4, natLE 4 (4 + body.length + 1) ++ body ++ [0], ?_,
            by decide, ?_, ?_⟩
          · rw [← henc, hnts]
            simp [List.append_assoc]
          · rw [Val.fuelN]
            simp only [List.length_append, natLE_length, List.length_cons,
              List.length_nil]
            omega
          · intro pre rest fuel hf hbnd hr
            rw [Val.fuelN] at hf
            simp only [List.length_append, natLE_length, List.length_cons,
              List.length_nil] at hbnd
            obtain ⟨f, rfl⟩ : ∃ f, fuel = f + 1 := ⟨fuel - 1, by omega⟩
            rw [show sByte 4 = 4 from by decide]
            simp only [getValue]
            have hbase : (pre ++ (natLE 4 (4 + body.length + 1) ++ body ++ [0])
                ++ rest).drop pre.length =
                natLE 4 (4 + body.length + 1) ++ (body ++ (0 :: rest)) := by
              rw [List.append_assoc, drop_exact _ rfl]
              simp [List.append_assoc]
            rw [readI32_at hbase (by omega)]
            rw [show (((4 + body.length + 1 : Nat) : Int)).toNat =
              4 + body.length + 1 from by omega]
            rw [show pre.length + (4 + body.length + 1) - 1 =
              (pre ++ natLE 4 (4 + body.length + 1)).length + body.length from by
                simp only [List.length_append, natLE_length] <;> omega]
            rw [show pre.length + 4 =
              (pre ++ natLE 4 (4 + body.length + 1)).length from by
                simp only [List.length_append, natLE_length] <;> omega]
            rw [show ((pre ++ (natLE 4 (4 + body.length + 1) ++ body ++ [0]) ++
                rest : Bytes)) =
              (pre ++ natLE 4 (4 + body.length + 1)) ++ body ++ (0 :: rest)
              from by simp [List.append_assoc]]
            rw [hloop (pre ++ natLE 4 (4 + body.length + 1)) (0 :: rest) f
              (by omega)
              (by simp only [List.length_append, natLE_length,
                    List.length_cons, List.length_nil]
                  omega)
              (by simp)]
            try dsimp only
            simp only [Except.ok.injEq, Prod.mk.injEq, List.length_append,
              natLE_length, List.length_cons, List.length_nil,
              eq_self_iff_true, true_and]
            omega
    | vcode code scope =>
      try dsimp only at henc
      have hws : Doc.wf scope = true := by simpa [Val.wf] using hwf
      rcases hnt : nameType k.bytes 15 with e | nt
      · rw [hnt] at henc
        exact absurd henc (by simp)
      · rw [hnt] at henc
        try dsimp only at henc
        rw [wf_no_sym scope idKey hws] at henc
        simp only [Bool.and_false] at henc
        rcases hdl : docLoop false true false scope with ⟨r, s2⟩
        rw [hdl] at henc
        try dsimp only at henc
        cases r with
        | error e => exact absurd henc (by simp)
        | ok sbody =>
          try dsimp only at henc
          rcases hdf : docFrame sbody with e | sdoc
          · rw [hdf] at henc
            exact absurd henc (by simp)
          · rw [hdf] at henc
            try dsimp only at henc
            simp only [Except.ok.injEq] at henc
            obtain ⟨hsd, hlim⟩ := docFrame_ok hdf
            rw [hsd, subFrame] at henc
            have hil : (natLE 4 (code.length + 1) ++ code ++ [0] ++
                (natLE 4 (4 + sbody.length + 1) ++ sbody ++ [0])).length =
                code.length + sbody.length + 10 := by
              simp only [List.length_append, natLE_length, List.length_cons,
                List.length_nil] <;> omega
            rw [hil] at henc
            obtain ⟨hnts, h0⟩ := nameType_ok hnt
            obtain ⟨hshape, hfl, hloop⟩ :=
              doc_roundtrip false scope sbody hws (by rw [hdl])
            refine ⟨15, natLE 4 (4 + (code.length + sbody.length + 10)) ++
              (natLE 4 (code.length + 1) ++ code ++ [0] ++
                (natLE 4 (4 + sbody.length + 1) ++ sbody ++ [0])), ?_,
              by decide, ?_, ?_⟩
            · rw [← henc, hnts]
              simp [List.append_assoc]
            · rw [Val.fuelN]
              simp only [List.length_append, natLE_length, List.length_cons,
                List.length_nil]
              omega
            · intro pre rest fuel hf hbnd hr
              rw [Val.fuelN] at hf
              simp only [List.length_append, natLE_length, List.length_cons,
                List.length_nil] at hbnd
              obtain ⟨f, rfl⟩ : ∃ f, fuel = f + 1 := ⟨fuel - 1, by omega⟩
              rw [show sByte 15 = 15 from by decide]
              simp only [getValue]
              have hbase : (pre ++ (natLE 4 (4 + (code.length + sbody.length +
                  10)) ++ (natLE 4 (code.length + 1) ++ code ++ [0] ++
                  (natLE 4 (4 + sbody.length + 1) ++ sbody ++ [0]))) ++
                  rest).drop pre.length =
                  natLE 4 (4 + (code.length + sbody.length + 10)) ++
                    (natLE 4 (code.length + 1) ++ (code ++ (0 ::
                      (natLE 4 (4 + sbody.length + 1) ++ (sbody ++
                        (0 :: rest)))))) := by
                rw [List.append_assoc, drop_exact _ rfl]
                simp [List.append_assoc]
              have h1 := drop_shift hbase (natLE_length 4 _)
              rw [readI32_at h1 (by omega)]
              rw [show (((code.length + 1 : Nat) : Int) - 1).toNat = code.length
                from by omega]
              have h2 := drop_shift h1 (natLE_length 4 _)
              rw [window_at h2 rfl]
              have h3 := drop_shift h2 rfl
              have h3b : (pre ++ (natLE 4 (4 + (code.length + sbody.length +
                  10)) ++ (natLE 4 (code.length + 1) ++ code ++ [0] ++
                  (natLE 4 (4 + sbody.length + 1) ++ sbody ++ [0]))) ++
                  rest).drop (pre.length + 4 + 4 + code.length) =
                  [0] ++ (natLE 4 (4 + sbody.length + 1) ++ (sbody ++
                    (0 :: rest))) := h3
              have h4 := drop_shift h3b (show ([0] : Bytes).length = 1 from rfl)
              rw [readI32_at h4 (by omega)]
              rw [show (((4 + sbody.length + 1 : Nat) : Int)).toNat =
                4 + sbody.length + 1 from by omega]
              rw [show 4 + sbody.length + 1 - 5 = sbody.length from by omega]
              rw [show pre.length + 4 + 4 + code.length + 1 + 4 =
                (pre ++ natLE 4 (4 + (code.length + sbody.length + 10)) ++
                  natLE 4 (code.length + 1) ++ code ++ [0] ++
                  natLE 4 (4 + sbody.length + 1)).length from by
                simp only [List.length_append, natLE_length, List.length_cons,
                  List.length_nil] <;> omega]
              rw [show ((pre ++ (natLE 4 (4 + (code.length + sbody.length + 10))
                  ++ (natLE 4 (code.length + 1) ++ code ++ [0] ++
                  (natLE 4 (4 + sbody.length + 1) ++ sbody ++ [0]))) ++ rest :
                  Bytes)) =
                (pre ++ natLE 4 (4 + (code.length + sbody.length + 10)) ++
                  natLE 4 (code.length + 1) ++ code ++ [0] ++
                  natLE 4 (4 + sbody.length + 1)) ++ sbody ++ (0 :: rest)
                from by simp [List.append_assoc]]
              rw [hloop (pre ++ natLE 4 (4 + (code.length + sbody.length + 10))
                ++ natLE 4 (code.length + 1) ++ code ++ [0] ++
                natLE 4 (4 + sbody.length + 1)) (0 :: rest) f .dnil (by omega)
                (by simp only [List.length_append, natLE_length,
                      List.length_cons, List.length_nil]
                    omega)
                (by simp) (freshKeys_dnil scope)]
              try dsimp only
              simp only [Doc.append, Except.ok.injEq, Prod.mk.injEq,
                List.length_append, natLE_length, List.length_cons,
                List.length_nil, eq_self_iff_true, true_and] <;> omega
    | vdbref ns oid =>
      cases ns with
      | vint n => simp [Val.wf] at hwf
      | vbool b => simp [Val.wf] at hwf
      | vdouble bits => simp [Val.wf] at hwf
      | vnil => simp [Val.wf] at hwf
      | vdoc d => simp [Val.wf] at hwf
      | varray a => simp [Val.wf] at hwf
      | vcode code scope => simp [Val.wf] at hwf
      | vsymbol s => simp [Val.wf] at hwf
      | vbinary st data => simp [Val.wf] at hwf
      | objid ob => simp [Val.wf] at hwf
      | vdbref ns2 oid2 => simp [Val.wf] at hwf
      | vmaxkey => simp [Val.wf] at hwf
      | vminkey => simp [Val.wf] at hwf
      | vtime ms => simp [Val.wf] at hwf
      | vregex pat fi fm fx extra => simp [Val.wf] at hwf
      | vstring cs =>
        try dsimp only at henc
        have hwo : Val.wf oid = true := by simpa [Val.wf] using hwf
        rcases hnt : nameType k.bytes 3 with e | nt
        · rw [hnt] at henc
          exact absurd henc (by simp)
        · rw [hnt] at henc
          try dsimp only at henc
          rw [writeElement_allowId false (.kstr refKey) (.vstring cs)
            (by decide)] at henc
          have hwr : writeElement false true (.kstr refKey) (.vstring cs) =
              (.ok ((2 :: (refKey ++ [0])) ++ natLE 4 (cs.length + 1) ++ cs ++
                [0]), .vstring cs) := rfl
          rw [hwr] at henc
          try dsimp only at henc
          rw [writeElement_allowId false (.kstr [36, 105, 100]) oid
            (by decide)] at henc
          rcases hw2 : writeElement false true (.kstr [36, 105, 100]) oid
            with ⟨r2, oid2⟩
          rw [hw2] at henc
          try dsimp only at henc
          cases r2 with
          | error e => exact absurd henc (by simp)
          | ok b2 =>
            try dsimp only at henc
            simp only [Except.ok.injEq] at henc
            rw [subFrame] at henc
            obtain ⟨hnts, h0⟩ := nameType_ok hnt
            obtain ⟨tag2, pay2, hb2, htag2, hfl2, hdec2⟩ :=
              val_roundtrip false (.kstr [36, 105, 100]) oid b2 hwo (by rw [hw2])
            rw [RKey.bytes] at hb2
            have hlb2 : b2.length = 5 + pay2.length := by
              rw [hb2]
              simp only [List.length_cons, List.length_append, List.length_nil]
              omega
            refine ⟨3, natLE 4 (4 + ((2 :: (refKey ++ [0])) ++
                natLE 4 (cs.length + 1) ++ cs ++ [0] ++ b2).length + 1) ++
              ((2 :: (refKey ++ [0])) ++ natLE 4 (cs.length + 1) ++ cs ++ [0] ++
                b2) ++ [0], ?_, by decide, ?_, ?_⟩
            · rw [← henc, hnts]
              simp [List.append_assoc]
            · rw [Val.fuelN]
              simp only [List.length_append, natLE_length, List.length_cons,
                List.length_nil, refKey]
              omega
            · intro pre rest fuel hf hbnd hr
              rw [Val.fuelN] at hf
              simp only [List.length_append, natLE_length, List.length_cons,
                List.length_nil, refKey] at hbnd
              obtain ⟨f, rfl⟩ : ∃ f, fuel = f + 1 := ⟨fuel - 1, by omega⟩
              have hbl1 : ((2 :: (refKey ++ [0])) ++ natLE 4 (cs.length + 1) ++
                  cs ++ [0] ++ b2).length = 11 + cs.length + b2.length := by
                simp only [List.length_append, natLE_length, List.length_cons,
                  List.length_nil, refKey] <;> omega
              rw [show sByte 3 = 3 from by decide]
              simp only [getValue]
              rw [hbl1]
              have hbase : (pre ++ (natLE 4 (4 + (11 + cs.length + b2.length) +
                  1) ++ ((2 :: (refKey ++ [0])) ++ natLE 4 (cs.length + 1) ++
                  cs ++ [0] ++ b2) ++ [0]) ++ rest).drop pre.length =
                  natLE 4 (4 + (11 + cs.length + b2.length) + 1) ++
                  (2 :: (refKey ++ (0 :: (natLE 4 (cs.length + 1) ++ (cs ++
                    (0 :: (b2 ++ (0 :: rest)))))))) := by
                rw [List.append_assoc, drop_exact _ rfl]
                simp [List.append_assoc]
              rw [readI32_at hbase (by omega)]
              rw [Int.toNat_natCast]
              have href : isRefAt (pre ++ (natLE 4 (4 + (11 + cs.length +
                  b2.length) + 1) ++ ((2 :: (refKey ++ [0])) ++
                  natLE 4 (cs.length + 1) ++ cs ++ [0] ++ b2) ++ [0]) ++ rest)
                  (pre.length + 5) = true := by
                have h5 : (pre ++ (natLE 4 (4 + (11 + cs.length + b2.length) +
                    1) ++ ((2 :: (refKey ++ [0])) ++ natLE 4 (cs.length + 1) ++
                    cs ++ [0] ++ b2) ++ [0]) ++ rest).drop (pre.length + 5) =
                    [36, 114, 101, 102, 0] ++ (natLE 4 (cs.length + 1) ++
                      (cs ++ (0 :: (b2 ++ (0 :: rest))))) := by
                  rw [show (pre ++ (natLE 4 (4 + (11 + cs.length + b2.length) +
                      1) ++ ((2 :: (refKey ++ [0])) ++ natLE 4 (cs.length + 1)
                      ++ cs ++ [0] ++ b2) ++ [0]) ++ rest) =
                    (pre ++ natLE 4 (4 + (11 + cs.length + b2.length) + 1) ++
                      [2]) ++ ([36, 114, 101, 102, 0] ++
                      (natLE 4 (cs.length + 1) ++ (cs ++ (0 :: (b2 ++
                        (0 :: rest)))))) from by
                    simp [refKey, List.append_assoc]]
                  exact drop_exact _ (by
                    simp only [List.length_append, natLE_length,
                      List.length_cons, List.length_nil] <;> omega)
                exact isRefAt_yes h5
              rw [if_pos href]
              have h10 : (pre ++ (natLE 4 (4 + (11 + cs.length + b2.length) + 1)
                  ++ ((2 :: (refKey ++ [0])) ++ natLE 4 (cs.length + 1) ++ cs ++
                  [0] ++ b2) ++ [0]) ++ rest).drop (pre.length + 10) =
                  natLE 4 (cs.length + 1) ++ (cs ++ (0 :: (b2 ++
                    (0 :: rest)))) := by
                rw [show (pre ++ (natLE 4 (4 + (11 + cs.length + b2.length) + 1)
                    ++ ((2 :: (refKey ++ [0])) ++ natLE 4 (cs.length + 1) ++ cs
                    ++ [0] ++ b2) ++ [0]) ++ rest) =
                  (pre ++ natLE 4 (4 + (11 + cs.length + b2.length) + 1) ++
                    [2, 36, 114, 101, 102, 0]) ++ (natLE 4 (cs.length + 1) ++
                    (cs ++ (0 :: (b2 ++ (0 :: rest))))) from by
                  simp [refKey, List.append_assoc]]
                exact drop_exact _ (by
                  simp only [List.length_append, natLE_length, List.length_cons,
                    List.length_nil] <;> omega)
              rw [readI32_at h10 (by omega)]
              rw [show (((cs.length + 1 : Nat) : Int) - 1).toNat = cs.length
                from by omega]
              have h14 := drop_shift h10 (natLE_length 4 _)
              rw [window_at h14 rfl]
              have h15 := drop_shift h14 rfl
              have h15b : (pre ++ (natLE 4 (4 + (11 + cs.length + b2.length) +
                  1) ++ ((2 :: (refKey ++ [0])) ++ natLE 4 (cs.length + 1) ++
                  cs ++ [0] ++ b2) ++ [0]) ++ rest).drop
                  (pre.length + 10 + 4 + cs.length) =
                  [0] ++ (b2 ++ (0 :: rest)) := h15
              have h16 := drop_shift h15b (show ([0] : Bytes).length = 1 from rfl)
              have h16b : (pre ++ (natLE 4 (4 + (11 + cs.length + b2.length) +
                  1) ++ ((2 :: (refKey ++ [0])) ++ natLE 4 (cs.length + 1) ++
                  cs ++ [0] ++ b2) ++ [0]) ++ rest).drop
                  (pre.length + 10 + 4 + cs.length + 1) =
                  tag2 :: (36 :: (105 :: (100 :: (0 :: (pay2 ++
                    (0 :: rest)))))) := by
                rw [h16, hb2]
                simp [List.append_assoc]
              rw [byteAt_at h16b]
              rw [show pre.length + 10 + 4 + cs.length + 1 + 5 =
                (pre ++ natLE 4 (4 + (11 + cs.length + b2.length) + 1) ++
                  [2, 36, 114, 101, 102, 0] ++ natLE 4 (cs.length + 1) ++ cs ++
                  [0, tag2, 36, 105, 100, 0]).length from by
                simp only [List.length_append, natLE_length, List.length_cons,
                  List.length_nil] <;> omega]
              rw [show ((pre ++ (natLE 4 (4 + (11 + cs.length + b2.length) + 1)
                  ++ ((2 :: (refKey ++ [0])) ++ natLE 4 (cs.length + 1) ++ cs ++
                  [0] ++ b2) ++ [0]) ++ rest : Bytes)) =
                (pre ++ natLE 4 (4 + (11 + cs.length + b2.length) + 1) ++
                  [2, 36, 114, 101, 102, 0] ++ natLE 4 (cs.length + 1) ++ cs ++
                  [0, tag2, 36, 105, 100, 0]) ++ pay2 ++ (0 :: rest) from by
                rw [hb2]
                simp [refKey, List.append_assoc]]
              rw [hdec2 (pre ++ natLE 4 (4 + (11 + cs.length + b2.length) + 1)
                  ++ [2, 36, 114, 101, 102, 0] ++ natLE 4 (cs.length + 1) ++ cs
                  ++ [0, tag2, 36, 105, 100, 0]) (0 :: rest) f (by omega)
                (by simp only [List.length_append, natLE_length,
                      List.length_cons, List.length_nil]
                    omega)
                (by simp)]
              try dsimp only
              simp only [Except.ok.injEq, Prod.mk.injEq, List.length_append,
                natLE_length, List.length_cons, List.length_nil, refKey,
                eq_self_iff_true, true_and] <;> omega

theorem doc_roundtrip (ck : Bool) (d : Doc) (body : Bytes)
    (hwf : Doc.wf d = true)
    (henc : (docLoop ck true false d).1 = .ok body) :
    ((d = .dnil ∧ body = []) ∨ (∃ k1 v1 r1 t1 tl1, d = .dcons k1 v1 r1 ∧
        body = t1 :: (k1.bytes ++ 0 :: tl1) ∧ t1 ≠ 36 ∧
        k1.bytes.contains 0 = false)) ∧
      Doc.fuelN d ≤ body.length + 1 ∧
      ∀ pre rest fuel acc, Doc.fuelN d ≤ fuel →
        pre.length + body.length + rest.length ≤ 4194310 →
        rest.head? ≠ some 36 → acc.freshKeys d = true →
        elemsLoop (pre ++ body ++ rest) fuel pre.length
          (pre.length + body.length) acc = .ok (acc.append d) := by
  cases d with
  | dnil =>
    rw [docLoop] at henc
    try dsimp only at henc
    simp only [Except.ok.injEq] at henc
    subst henc
    refine ⟨Or.inl ⟨rfl, rfl⟩, by simp [Doc.fuelN], ?_⟩
    intro pre rest fuel acc hf hbnd hr hfresh
    have hf1 : 1 ≤ fuel := le_trans (doc_fuelN_pos _) hf
    obtain ⟨f, rfl⟩ : ∃ f, fuel = f + 1 := ⟨fuel - 1, by omega⟩
    rw [elemsLoop]
    rw [if_neg (by simp)]
    rw [append_dnil]
  | dcons k v rest0 =>
    cases k with
    | ksym s =>
      rw [Doc.wf] at hwf
      simp at hwf
    | kstr s =>
      rw [Doc.wf] at hwf
      simp only [Bool.and_eq_true] at hwf
      obtain ⟨⟨⟨hns, hfk⟩, hv⟩, hr0⟩ := hwf
      have hs0 : s.contains 0 = false := by simpa using hns
      have hfkb : rest0.hasKeyBytes s = false := by simpa using hfk
      rw [docLoop] at henc
      simp only [Bool.false_and, Bool.false_eq_true, if_false] at henc
      rcases hw : writeElement ck true (.kstr s) v with ⟨r, v2⟩
      rw [hw] at henc
      try dsimp only at henc
      cases r with
      | error e => exact absurd henc (by simp)
      | ok b1 =>
        rcases hd : docLoop ck true false rest0 with ⟨r2, rest2⟩
        rw [hd] at henc
        try dsimp only at henc
        cases r2 with
        | error e => exact absurd henc (by simp)
        | ok b2 =>
          simp only [Except.ok.injEq] at henc
          subst henc
          obtain ⟨tag, payload, hb1, htag, hflv, hdecv⟩ :=
            val_roundtrip ck (.kstr s) v b1 hv (by rw [hw])
          rw [RKey.bytes] at hb1
          obtain ⟨hsh2, hfl2, hloop2⟩ := doc_roundtrip ck rest0 b2 hr0 (by rw [hd])
          have hlb1 : b1.length = 1 + (s.length + 1 + payload.length) := by
            rw [hb1]
            simp only [List.length_cons, List.length_append]
            omega
          refine ⟨?_, ?_, ?_⟩
          · right
            refine ⟨.kstr s, v, rest0, tag, payload ++ b2, rfl, ?_,
              htag, ?_⟩
            · rw [RKey.bytes, hb1]
              simp [List.append_assoc]
            · rw [RKey.bytes]
              exact hs0
          · rw [Doc.fuelN]
            simp only [List.length_append]
            omega
          · intro pre rest fuel acc hf hbnd hr hfresh
            rw [Doc.fuelN] at hf
            simp only [List.length_append] at hbnd
            obtain ⟨f, rfl⟩ : ∃ f, fuel = f + 1 := ⟨fuel - 1, by omega⟩
            rw [Doc.freshKeys] at hfresh
            simp only [Bool.and_eq_true] at hfresh
            have hfa : acc.hasKeyBytes s = false := by
              have hx := hfresh.1
              rw [RKey.bytes] at hx
              simpa using hx
            have hfr2 : acc.freshKeys rest0 = true := hfresh.2
            rw [elemsLoop]
            rw [if_pos (by simp only [List.length_append]; omega)]
            dsimp only
            have hdt : (pre ++ (b1 ++ b2) ++ rest).drop pre.length =
                tag :: (s ++ 0 :: (payload ++ (b2 ++ rest))) := by
              rw [List.append_assoc, drop_exact _ rfl, hb1]
              simp [List.append_assoc]
            rw [byteAt_at hdt]
            have hdt2 : (pre ++ (b1 ++ b2) ++ rest).drop pre.length =
                [tag] ++ (s ++ 0 :: (payload ++ (b2 ++ rest))) := hdt
            have h1 := drop_shift hdt2 (show ([tag] : Bytes).length = 1 from rfl)
            rw [cstrAt_at h1 hs0]
            have h2 := drop_shift h1 rfl
            have h2b : (pre ++ (b1 ++ b2) ++ rest).drop
                (pre.length + 1 + s.length) =
                [0] ++ (payload ++ (b2 ++ rest)) := h2
            have h3 := drop_shift h2b (show ([0] : Bytes).length = 1 from rfl)
            rw [show pre.length + 1 + s.length + 1 =
              (pre ++ tag :: (s ++ [0])).length from by
                simp only [List.length_append, List.length_cons,
                  List.length_nil] <;> omega]
            rw [show ((pre ++ (b1 ++ b2) ++ rest : Bytes)) =
              (pre ++ tag :: (s ++ [0])) ++ payload ++ (b2 ++ rest) from by
                rw [hb1]; simp [List.append_assoc]]
            rw [hdecv (pre ++ tag :: (s ++ [0])) (b2 ++ rest) f (by omega)
              (by simp only [List.length_append, List.length_cons,
                    List.length_nil]
                  omega)
              (by
                rcases hsh2 with ⟨hdn, hbn⟩ | ⟨k1, v1, r1, t1, tl1, hdd, hbd, ht1, hk1⟩
                · rw [hbn]
                  simpa using hr
                · rw [hbd]
                  simp only [List.cons_append, List.head?_cons, ne_eq,
                    Option.some.injEq]
                  exact ht1)]
            try dsimp only
            rw [show (pre ++ tag :: (s ++ [0])).length + payload.length =
              (pre ++ b1).length from by
                rw [hb1]
                simp only [List.length_append, List.length_cons, List.length_nil]
                omega]
            rw [show pre.length + (b1 ++ b2).length =
              (pre ++ b1).length + b2.length from by
                simp only [List.length_append] <;> omega]
            rw [show ((pre ++ tag :: (s ++ [0])) ++ payload ++ (b2 ++ rest) : Bytes)
              = (pre ++ b1) ++ b2 ++ rest from by
                rw [hb1]; simp [List.append_assoc]]
            rw [hloop2 (pre ++ b1) rest f (docInsert acc s v) (by omega)
              (by simp only [List.length_append]; omega) hr
              (freshKeys_docInsert acc rest0 s v hfr2 hfkb)]
            rw [docInsert_fresh acc s v hfa, append_assoc_doc]
            simp only [Doc.append]

theorem arr_roundtrip (ck : Bool) (i : Nat) (l : VList) (body : Bytes)
    (hwf : VList.wf l = true)
    (henc : (arrLoop ck i l).1 = .ok body) :
    (body = [] ∨ ∃ t1 tl1, body = t1 :: tl1 ∧ t1 ≠ 36) ∧
      VList.fuelN l ≤ body.length + 1 ∧
      ∀ pre rest fuel, VList.fuelN l ≤ fuel →
        pre.length + body.length + rest.length ≤ 4194310 →
        rest.head? ≠ some 36 →
        arrDecLoop (pre ++ body ++ rest) fuel pre.length
          (pre.length + body.length) = .ok (l, pre.length + body.length) := by
  cases l with
  | lnil =>
    rw [arrLoop] at henc
    try dsimp only at henc
    simp only [Except.ok.injEq] at henc
    subst henc
    refine ⟨Or.inl rfl, by simp [VList.fuelN], ?_⟩
    intro pre rest fuel hf hbnd hr
    have hf1 : 1 ≤ fuel := le_trans (list_fuelN_pos _) hf
    obtain ⟨f, rfl⟩ : ∃ f, fuel = f + 1 := ⟨fuel - 1, by omega⟩
    rw [arrDecLoop]
    rw [if_neg (by simp)]
    simp
  | lcons v rest0 =>
    simp only [VList.wf, Bool.and_eq_true] at hwf
    obtain ⟨hv, hr0⟩ := hwf
    rw [arrLoop] at henc
    rw [writeElement_allowId ck (.kstr (decStr i)) v (by
      rw [RKey.bytes]; exact cstrIsId_decStr i)] at henc
    rcases hw : writeElement ck true (.kstr (decStr i)) v with ⟨r, v2⟩
    rw [hw] at henc
    try dsimp only at henc
    cases r with
    | error e => exact absurd henc (by simp)
    | ok b1 =>
      rcases ha : arrLoop ck (i + 1) rest0 with ⟨r2, rest2⟩
      rw [ha] at henc
      try dsimp only at henc
      cases r2 with
      | error e => exact absurd henc (by simp)
      | ok b2 =>
        simp only [Except.ok.injEq] at henc
        subst henc
        obtain ⟨tag, payload, hb1, htag, hflv, hdecv⟩ :=
          val_roundtrip ck (.kstr (decStr i)) v b1 hv (by rw [hw])
        rw [RKey.bytes] at hb1
        obtain ⟨hsh2, hfl2, hloop2⟩ :=
          arr_roundtrip ck (i + 1) rest0 b2 hr0 (by rw [ha])
        have hlb1 : b1.length = 1 + ((decStr i).length + 1 + payload.length) := by
          rw [hb1]
          simp only [List.length_cons, List.length_append]
          omega
        refine ⟨?_, ?_, ?_⟩
        · right
          exact ⟨tag, (decStr i ++ 0 :: payload) ++ b2,
            by rw [hb1]; simp [List.append_assoc], htag⟩
        · rw [VList.fuelN]
          simp only [List.length_append]
          omega
        · intro pre rest fuel hf hbnd hr
          rw [VList.fuelN] at hf
          simp only [List.length_append] at hbnd
          obtain ⟨f, rfl⟩ : ∃ f, fuel = f + 1 := ⟨fuel - 1, by omega⟩
          rw [arrDecLoop]
          rw [if_pos (by simp only [List.length_append]; omega)]
          dsimp only
          have hdt : (pre ++ (b1 ++ b2) ++ rest).drop pre.length =
              tag :: (decStr i ++ 0 :: (payload ++ (b2 ++ rest))) := by
            rw [List.append_assoc, drop_exact _ rfl, hb1]
            simp [List.append_assoc]
          rw [byteAt_at hdt]
          have hdt2 : (pre ++ (b1 ++ b2) ++ rest).drop pre.length =
              [tag] ++ (decStr i ++ 0 :: (payload ++ (b2 ++ rest))) := hdt
          have h1 := drop_shift hdt2 (show ([tag] : Bytes).length = 1 from rfl)
          rw [cstrAt_at h1 (decStr_no0 i)]
          have h2 := drop_shift h1 rfl
          have h2b : (pre ++ (b1 ++ b2) ++ rest).drop
              (pre.length + 1 + (decStr i).length) =
              [0] ++ (payload ++ (b2 ++ rest)) := h2
          have h3 := drop_shift h2b (show ([0] : Bytes).length = 1 from rfl)
          rw [show pre.length + 1 + (decStr i).length + 1 =
            (pre ++ tag :: (decStr i ++ [0])).length from by
              simp only [List.length_append, List.length_cons,
                List.length_nil] <;> omega]
          rw [show ((pre ++ (b1 ++ b2) ++ rest : Bytes)) =
            (pre ++ tag :: (decStr i ++ [0])) ++ payload ++ (b2 ++ rest) from by
              rw [hb1]; simp [List.append_assoc]]
          rw [hdecv (pre ++ tag :: (decStr i ++ [0])) (b2 ++ rest) f (by omega)
            (by simp only [List.length_append, List.length_cons, List.length_nil]
                omega)
            (by
              rcases hsh2 with hbn | ⟨t1, tl1, hbd, ht1⟩
              · rw [hbn]
                simpa using hr
              · rw [hbd]
                simp only [List.cons_append, List.head?_cons, ne_eq,
                  Option.some.injEq]
                exact ht1)]
          try dsimp only
          rw [show (pre ++ tag :: (decStr i ++ [0])).length + payload.length =
            (pre ++ b1).length from by
              rw [hb1]
              simp only [List.length_append, List.length_cons, List.length_nil]
              omega]
          rw [show pre.length + (b1 ++ b2).length =
            (pre ++ b1).length + b2.length from by
              simp only [List.length_append] <;> omega]
          rw [show ((pre ++ tag :: (decStr i ++ [0])) ++ payload ++ (b2 ++ rest) :
              Bytes) = (pre ++ b1) ++ b2 ++ rest from by
              rw [hb1]; simp [List.append_assoc]]
          rw [hloop2 (pre ++ b1) rest f (by omega)
            (by simp only [List.length_append]; omega) hr]

end

/-- C1 (amended): round trip of serialize with check_keys = false and
move_id = false. For a document whose keys are NUL-free distinct string
keys throughout, whose nested plain documents do not start with a "$ref"
key, whose symbol values are NUL-free, whose regex extra flags are already
sorted, at most nine, NUL-free and free of i/m/x, whose ObjectIds are
twelve bytes, whose times fit in an int64 and whose DBRef namespaces are
strings, deserializing a successful serialization returns exactly the
input document. Without these restrictions the claim fails: a nested
plain document whose first key spells "$ref" decodes as a DBRef
(roundtrip_counterexample). -/
theorem serialize_roundtrip (d : Doc) (bs : Bytes)
    (hwf : Doc.wf d = true)
    (hs : (serialize d false false).1 = .ok bs) :
    deserialize bs = .ok d := by
  rcases ht : topBody false false d with ⟨r, d1⟩
  rw [serialize, ht] at hs
  try dsimp only at hs
  cases r with
  | error e => exact absurd hs (by simp)
  | ok body =>
    try dsimp only at hs
    rcases hfr : docFrame body with e | bs2
    · rw [hfr] at hs
      exact absurd hs (by simp)
    · rw [hfr] at hs
      try dsimp only at hs
      simp only [Except.ok.injEq] at hs
      subst hs
      obtain ⟨hbs2, hlim⟩ := docFrame_ok hfr
      rw [hbs2, subFrame]
      rw [topBody] at ht
      simp only [Bool.false_eq_true, if_false] at ht
      try dsimp only at ht
      rw [wf_no_sym d idKey hwf] at ht
      simp only [Bool.and_false] at ht
      obtain ⟨hshape, hfl, hloop⟩ := doc_roundtrip false d body hwf (by rw [ht])
      rw [deserialize]
      have hlen : (natLE 4 (4 + body.length + 1) ++ body ++ [0]).length =
          4 + body.length + 1 := by
        simp only [List.length_append, natLE_length, List.length_cons,
          List.length_nil] <;> omega
      rw [hlen]
      rw [show 4 + body.length + 1 - 5 = body.length from by omega]
      have H := hloop (natLE 4 (4 + body.length + 1)) [0]
        (4 + body.length + 1 + 1) .dnil (by omega)
        (by simp only [List.length_append, natLE_length, List.length_cons,
              List.length_nil]
            omega)
        (by simp) (freshKeys_dnil d)
      rw [natLE_length] at H
      rw [H]
      simp only [Doc.append]

theorem serialize_roundtrip_witness :
    Doc.wf (.dcons (.kstr [97]) (.vint 1) .dnil) = true ∧
    (serialize (.dcons (.kstr [97]) (.vint 1) .dnil) false false).1 =
      .ok [12, 0, 0, 0, 16, 97, 0, 1, 0, 0, 0, 0] ∧
    deserialize [12, 0, 0, 0, 16, 97, 0, 1, 0, 0, 0, 0] =
      .ok (.dcons (.kstr [97]) (.vint 1) .dnil) :=
  ⟨by decide, by decide, serialize_roundtrip _ _ (by decide) (by decide)⟩

/-- C1 counterexample: a nested plain document whose first key spells
"$ref" serializes successfully but is decoded as a DBRef, so the
round trip changes the document. -/
theorem roundtrip_counterexample :
    (serialize (.dcons (.kstr [97]) (.vdoc (.dcons (.kstr [36, 114, 101, 102])
        (.vstring [99]) (.dcons (.kstr [36, 105, 100]) (.vstring [100])
        .dnil))) .dnil) false false).1 =
      .ok [36, 0, 0, 0, 3, 97, 0, 28, 0, 0, 0, 2, 36, 114, 101, 102, 0,
        2, 0, 0, 0, 99, 0, 2, 36, 105, 100, 0, 2, 0, 0, 0, 100, 0, 0, 0] ∧
    deserialize [36, 0, 0, 0, 3, 97, 0, 28, 0, 0, 0, 2, 36, 114, 101, 102, 0,
        2, 0, 0, 0, 99, 0, 2, 36, 105, 100, 0, 2, 0, 0, 0, 100, 0, 0, 0] =
      .ok (.dcons (.kstr [97]) (.vdbref (.vstring [99]) (.vstring [100]))
        .dnil) ∧
    Doc.dcons (.kstr [97]) (.vdbref (.vstring [99]) (.vstring [100])) .dnil ≠
      .dcons (.kstr [97]) (.vdoc (.dcons (.kstr [36, 114, 101, 102])
        (.vstring [99]) (.dcons (.kstr [36, 105, 100]) (.vstring [100])
        .dnil))) .dnil :=
  ⟨by decide, by decide, by decide⟩

end MongoCBson
